import Mathlib

/-!
# Verification of the local markdown record store

Shallow embedding of the local record store of this repository
(`src/services/local-github.ts`, `src/commands/update-task.ts`,
`src/commands/add-tasks.ts`): the checklist codec (decode of `- [x]` lines,
merge of a task list back into the `## Tasks` region), the status deriver,
the record-file lookup, the title/description parser and the feature-id
extraction.  Documents are strings; a line is a `List Char` obtained by
splitting the document on `'\n'`, exactly as the source does with
`content.split("\n")`.
-/

namespace LocalStore

/-- The whitespace class of the JavaScript regex `\s`, restricted to the
characters that can occur in the documents handled here (ASCII whitespace,
no-break space and the BOM). -/
def isWsChar (c : Char) : Bool :=
  c = ' ' || c = '\t' || c = '\n' || c = '\r' || c = '\u000b' || c = '\u000c' ||
  c = '\u00a0' || c = '\ufeff'

/-- Characters matched by the JavaScript regex `.` (anything but a line
terminator). -/
def dotOk (c : Char) : Bool :=
  !(c = '\n' || c = '\r' || c = '\u2028' || c = '\u2029')

/-- `content.split("\n")` on the character list: the document's lines,
without their terminating newlines.  Never returns the empty list. -/
def splitLinesCh : List Char → List (List Char)
  | [] => [[]]
  | c :: rest =>
    if c = '\n' then [] :: splitLinesCh rest
    else
      match splitLinesCh rest with
      | [] => [[c]]
      | l :: ls => (c :: l) :: ls

/-- `lines.join("\n")` on character lists. -/
def joinLinesCh : List (List Char) → List Char
  | [] => []
  | [l] => l
  | l :: l' :: ls => l ++ '\n' :: joinLinesCh (l' :: ls)

/-- A decoded checklist entry (`Task` in `src/types/story.ts`): the source
stores `id` as a string (`String(taskId++)`), `prNumber` is optional. -/
structure Task where
  id : String
  description : String
  completed : Bool
  prNumber : Option Nat
deriving Repr, DecidableEq

/-! ## The checkbox-line grammar

`local-github.ts:166`: `line.match(/^[\s]*-?\s*\[([x\s])\]\s*(.+)$/i)`. -/

/-- The character class `[x\s]` under the `i` flag. -/
def isBoxChar (c : Char) : Bool :=
  c = 'x' || c = 'X' || isWsChar c

/-- The suffix after `]` matched against `\s*(.+)$`: the greedy `\s*` eats the
maximal whitespace run but must leave at least one character for `.+`, and
every captured character must be matched by `.` (no line terminator). -/
def tailAfterWs (rest : List Char) : Option (List Char) :=
  if rest = [] then none
  else
    let k := min (rest.takeWhile isWsChar).length (rest.length - 1)
    let t := rest.drop k
    if t.all dotOk then some t else none

/-- The checkbox-line regex `^[\s]*-?\s*\[([x\s])\]\s*(.+)$` (flag `i`):
returns the checkbox character and the text capture group. -/
def parseTaskLine (l : List Char) : Option (Char × List Char) :=
  let r1 := l.dropWhile isWsChar
  let r2 := match r1 with
    | '-' :: t => t.dropWhile isWsChar
    | _ => r1
  match r2 with
  | '[' :: c :: ']' :: rest =>
    if isBoxChar c then
      match tailAfterWs rest with
      | some g => some (c, g)
      | none => none
    else none
  | _ => none

/-! ## PR-number extraction

`local-github.ts:172`: `description.match(/\(#(\d+)\)/)` and
`description.replace(/\s*\(#\d+\)/, "")`. -/

/-- Decimal value of a digit run (the effect of `parseInt` on the capture of
`\d+`). -/
def digitsToNat (ds : List Char) : Nat :=
  ds.foldl (fun a c => a * 10 + (c.toNat - 48)) 0

/-- Try the core pattern `\(#(\d+)\)` at the current position; on success
return the captured value and the matched length. -/
def matchPrAt (l : List Char) : Option (Nat × Nat) :=
  match l with
  | '(' :: '#' :: rest =>
    let ds := rest.takeWhile Char.isDigit
    if ds = [] then none
    else
      match rest.drop ds.length with
      | ')' :: _ => some (digitsToNat ds, ds.length + 3)
      | _ => none
  | _ => none

/-- Leftmost match of `\(#(\d+)\)`, as `String.prototype.match` finds it. -/
def firstPr : List Char → Option Nat
  | [] => none
  | c :: rest =>
    match matchPrAt (c :: rest) with
    | some (n, _) => some n
    | none => firstPr rest

/-- Try `\s*\(#\d+\)` anchored at the current position: the greedy `\s*`
forces the core to match exactly at the end of the whitespace run (the core
starts with `(`, which is not whitespace).  Returns the suffix after the
match. -/
def tryPrWithWs (l : List Char) : Option (List Char) :=
  let m := (l.takeWhile isWsChar).length
  match matchPrAt (l.drop m) with
  | some (_, len) => some (l.drop (m + len))
  | none => none

/-- `description.replace(/\s*\(#\d+\)/, "")`: remove the leftmost occurrence
of optional whitespace followed by a parenthesised PR reference. -/
def replaceFirstPrWs : List Char → List Char
  | [] => []
  | c :: rest =>
    match tryPrWithWs (c :: rest) with
    | some suffix => suffix
    | none => c :: replaceFirstPrWs rest

/-- `String.prototype.trim` over the JavaScript whitespace class. -/
def jsTrim (l : List Char) : List Char :=
  ((l.dropWhile isWsChar).reverse.dropWhile isWsChar).reverse

/-- Decode one line (`local-github.ts:166-180`): completion flag
(`checkStatus.toLowerCase() === "x"`), cleaned description and optional PR
number. -/
def decodeTaskLine (l : List Char) : Option (Bool × List Char × Option Nat) :=
  match parseTaskLine l with
  | some (c, g) => some (c = 'x' || c = 'X', jsTrim (replaceFirstPrWs g), firstPr g)
  | none => none

/-- The scanning loop of `extractTasksFromContent`, with the running
`taskId` counter (`local-github.ts:164-182`). -/
def extractGo : Nat → List (List Char) → List Task
  | _, [] => []
  | n, l :: ls =>
    match decodeTaskLine l with
    | some (comp, desc, pr) =>
      { id := toString n, description := String.mk desc,
        completed := comp, prNumber := pr } :: extractGo (n + 1) ls
    | none => extractGo n ls

/-- `extractTasksFromContent` (`local-github.ts:150-185`): scan every line of
the document for the checkbox grammar; ids are assigned 1-based in match
order. -/
def extractTasksFromContent (content : String) : List Task :=
  extractGo 1 (splitLinesCh content.data)

/-! ## Status derivation (`local-github.ts:187-198`) -/

inductive Status where
  | todo | inProgress | review | done
deriving Repr, DecidableEq

/-- `calculateStoryStatus` of `local-github.ts:187-198`. -/
def calculateStoryStatus (tasks : List Task) : Status :=
  if tasks.length = 0 then .todo
  else
    let completedTasks := (tasks.filter (·.completed)).length
    if completedTasks = 0 then .todo
    else if completedTasks = tasks.length then .done
    else .inProgress

/-- `calculateStoryStatus` of `update-task.ts:284-289` (counts form). -/
def calculateStoryStatusCounts (completed total : Nat) : Status :=
  if total = 0 then .todo
  else if completed = 0 then .todo
  else if completed = total then .done
  else .inProgress

/-! ## The merge (`updateStoryFile`, `update-task.ts:230-281`) -/

/-- `^##\s*Tasks` with flag `i`: two hashes, optional whitespace, then
`Tasks` in any case. -/
def isTasksHeading (l : List Char) : Bool :=
  match l with
  | '#' :: '#' :: rest =>
    ((rest.dropWhile isWsChar).take 5).map Char.toLower = "tasks".data
  | _ => false

/-- `^##`. -/
def isNextHeading (l : List Char) : Bool :=
  match l with
  | '#' :: '#' :: _ => true
  | _ => false

/-- The skip predicate of the inner loop (`update-task.ts:265-270`):
`lines[i+1].match(/^-\s*\[/) || lines[i+1].trim() === ""`. -/
def skipLine (l : List Char) : Bool :=
  (match l with
   | '-' :: t =>
     match t.dropWhile isWsChar with
     | '[' :: _ => true
     | _ => false
   | _ => false) || l.all isWsChar

/-- `haystack.includes(needle)` on character lists. -/
def jsIncludesCh : List Char → List Char → Bool
  | [], sub => sub.isEmpty
  | c :: t, sub => sub.isPrefixOf (c :: t) || jsIncludesCh t sub

/-- `haystack.includes(needle)`. -/
def jsIncludes (s sub : String) : Bool := jsIncludesCh s.data sub.data

/-- `lines[i+1].includes("Break this story down")` (`update-task.ts:247`). -/
def containsNote (l : List Char) : Bool :=
  jsIncludesCh l "Break this story down".data

/-- Decimal digit character (only ever applied to `n % 10` and `n < 10`). -/
def decDigitChar : Nat → Char
  | 0 => '0' | 1 => '1' | 2 => '2' | 3 => '3' | 4 => '4'
  | 5 => '5' | 6 => '6' | 7 => '7' | 8 => '8' | _ => '9'

/-- Decimal rendering of a natural number (the effect of interpolating a
JavaScript number into a template string), with explicit fuel. -/
def natToDecAux : Nat → Nat → List Char → List Char
  | 0, _, acc => acc
  | f + 1, n, acc =>
    if n < 10 then decDigitChar n :: acc
    else natToDecAux f (n / 10) (decDigitChar (n % 10) :: acc)

/-- Decimal rendering of a natural number. -/
def natToDecCh (n : Nat) : List Char := natToDecAux (n + 1) n []

/-- Rendering of one task (`update-task.ts:255-260`):
``- ${checkbox} ${task.description}${prInfo}`` where `prInfo` is empty when
`task.prNumber` is absent or `0` (JavaScript truthiness). -/
def renderTask (t : Task) : List Char :=
  '-' :: ' ' :: '[' :: (if t.completed then 'x' else ' ') :: ']' :: ' ' ::
    t.description.data ++
    (match t.prNumber with
     | some n => if n = 0 then [] else ' ' :: '(' :: '#' :: natToDecCh n ++ [')']
     | none => [])

/-- The freshly spliced checklist block lines. -/
def renderTasks (tasks : List Task) : List (List Char) :=
  tasks.map renderTask

/-- The developer-note lookahead of `update-task.ts:244-251`: if the line
after the heading contains the marker phrase it is preserved and consumed. -/
def noteSplit (rest : List (List Char)) : List (List Char) × List (List Char) :=
  match rest with
  | [] => ([], [])
  | n :: r => if containsNote n then ([n], r) else ([], n :: r)

theorem noteSplit_snd_length_le (rest : List (List Char)) :
    (noteSplit rest).2.length ≤ rest.length := by
  cases rest with
  | nil => simp [noteSplit]
  | cons n r =>
    by_cases h : containsNote n <;> simp [noteSplit, h]

theorem dropWhile_length_le {α : Type} (p : α → Bool) (l : List α) :
    (l.dropWhile p).length ≤ l.length := by
  induction l with
  | nil => simp
  | cons a t ih =>
    by_cases h : p a
    · simp only [List.dropWhile_cons, h, if_true]
      exact le_trans ih (Nat.le_succ _)
    · simp [List.dropWhile_cons, h]

/-- The line loop of `updateStoryFile` (`update-task.ts:236-278`).  On the
Tasks heading: emit it, optionally emit the developer-note line, emit a blank
line and the freshly rendered complete task list, then drop the contiguous
run of checklist-or-blank lines that follows; `inT` is `inTasksSection`: while
it holds, lines before the next `##` heading are dropped. -/
def updateGo (tasks : List Task) (inT : Bool) : List (List Char) → List (List Char)
  | [] => []
  | l :: rest =>
    if isTasksHeading l then
      let p := noteSplit rest
      let rest2 := p.2.dropWhile skipLine
      l :: (p.1 ++ [] :: (renderTasks tasks ++ updateGo tasks true rest2))
    else if inT && isNextHeading l then
      l :: updateGo tasks false rest
    else if !inT then
      l :: updateGo tasks false rest
    else
      updateGo tasks true rest
termination_by l => l.length
decreasing_by
  · exact Nat.lt_succ_of_le
      (le_trans (dropWhile_length_le _ _) (noteSplit_snd_length_le _))
  all_goals exact Nat.lt_succ_of_le (le_refl _)

/-- Fuel-indexed twin of `updateGo`, kernel-reducible; `updateGoF_eq` shows it
agrees with `updateGo` whenever the fuel covers the number of lines. -/
def updateGoF (tasks : List Task) : Nat → Bool → List (List Char) → List (List Char)
  | 0, _, _ => []
  | _ + 1, _, [] => []
  | f + 1, inT, l :: rest =>
    if isTasksHeading l then
      let p := noteSplit rest
      let rest2 := p.2.dropWhile skipLine
      l :: (p.1 ++ [] :: (renderTasks tasks ++ updateGoF tasks f true rest2))
    else if inT && isNextHeading l then
      l :: updateGoF tasks f false rest
    else if !inT then
      l :: updateGoF tasks f false rest
    else
      updateGoF tasks f true rest

/-- The pure content transformation performed by `updateStoryFile`
(`update-task.ts:230-281`): split on newlines, rewrite the Tasks region,
join with newlines. -/
def updateStoryContent (content : String) (tasks : List Task) : String :=
  String.mk (joinLinesCh (updateGo tasks false (splitLinesCh content.data)))

/-! ## Record lookup (`local-github.ts:80-109`, `update-task.ts:199-228`) -/

/-- A directory entry: file name and file content. -/
structure FileEntry where
  name : String
  content : String
deriving Repr, DecidableEq

/-- The match predicate of `fetchStory` (`local-github.ts:92-94`):
`file.includes(storyId) || file === storyId + ".md"`. -/
def storyFileMatches (storyId : String) (f : String) : Bool :=
  jsIncludes f storyId || f = storyId ++ ".md"

/-- The directory scan of `fetchStory` (`local-github.ts:88-105`): the
category directories in their fixed order, each either absent (`none`, the
caught `readdir` failure) or a file listing; the first matching file of the
first directory that has one wins. -/
def findStoryEntry (dirs : List (String × Option (List FileEntry)))
    (storyId : String) : Option (String × FileEntry) :=
  match dirs with
  | [] => none
  | (_, none) :: rest => findStoryEntry rest storyId
  | (d, some files) :: rest =>
    match files.find? (fun e => storyFileMatches storyId e.name) with
    | some e => some (d, e)
    | none => findStoryEntry rest storyId

/-- The not-found error message of `fetchStory` (`local-github.ts:108`). -/
def storyNotFoundMsg (storyId : String) : String :=
  "Story #" ++ storyId ++ " not found in any story directories"

/-- The locate-and-read prefix of `fetchStory`: after the directory loop the
code throws when `storyContent` is still falsy, which also happens when the
matched file is empty. -/
def fetchStoryLocate (dirs : List (String × Option (List FileEntry)))
    (storyId : String) : Except String (String × FileEntry) :=
  match findStoryEntry dirs storyId with
  | some (d, e) => if e.content = "" then .error (storyNotFoundMsg storyId) else .ok (d, e)
  | none => .error (storyNotFoundMsg storyId)

/-- The match predicate of `fetchFeature` (`local-github.ts:19-24`). -/
def featureFileMatches (featureId : String) (f : String) : Bool :=
  jsIncludes f featureId || f = featureId ++ ".md" || f = "feature-" ++ featureId ++ ".md"

/-- `f.replace(".md", "")`: remove the first occurrence of `.md`. -/
def replaceFirstMd : List Char → List Char
  | [] => []
  | c :: rest =>
    if ".md".data.isPrefixOf (c :: rest) then (c :: rest).drop 3
    else c :: replaceFirstMd rest

/-- One line of the candidate listing (`local-github.ts:31`):
``  ${i + 1}. ${f.replace(".md", "")}``. -/
def featureListEntry (i : Nat) (f : String) : List Char :=
  ' ' :: ' ' :: natToDecCh (i + 1) ++ '.' :: ' ' :: replaceFirstMd f.data

/-- `f.endsWith(".md")`. -/
def endsWithMd (f : String) : Bool := ".md".data.isSuffixOf f.data

/-- The not-found error message of `fetchFeature` (`local-github.ts:28-33`),
built from the `.md` files of the features directory. -/
def featureNotFoundMsg (featureId : String) (files : List String) : String :=
  String.mk (("Feature #" ++ featureId ++ " not found. Available features:\n").data ++
    joinLinesCh ((files.filter endsWithMd).mapIdx featureListEntry))

/-- The file-location step of `fetchFeature` (`local-github.ts:16-34`):
either the matching file name or the not-found error carrying the candidate
listing. -/
def fetchFeatureLocate (files : List String) (featureId : String) :
    Except String String :=
  match files.find? (featureFileMatches featureId) with
  | some f => .ok f
  | none => .error (featureNotFoundMsg featureId files)

/-! ## Title and description (`local-github.ts:112-123` and `40-51`) -/

/-- `lines[0].replace(/^#\s+/, "")`: strip one leading hash together with the
following (non-empty, greedy) whitespace run. -/
def stripTitleHash (l : List Char) : List Char :=
  match l with
  | '#' :: c :: rest =>
    if isWsChar c then (c :: rest).dropWhile isWsChar else l
  | _ => l

/-- The shared title/description parse of `fetchStory` and `fetchFeature`:
title from line 0, description from the first non-blank line after it,
trimmed at use site (`description.trim()`). -/
def parseTitleDesc (content : String) : String × String :=
  let lines := splitLinesCh content.data
  let title := stripTitleHash lines.headI
  let descLines := lines.tail.dropWhile (fun l => l.all isWsChar)
  (String.mk title, String.mk (jsTrim (joinLinesCh descLines)))

/-! ## Feature-id extraction (`local-github.ts:128-132`) -/

/-- Try `Feature[:#]\s*(\d+)` (flag `i`) at the current position; returns the
captured digits.  The whitespace class includes the newline, so the pattern
can span lines of the content. -/
def matchFeatureAt (l : List Char) : Option (List Char) :=
  match (l.take 7).map Char.toLower with
  | ['f', 'e', 'a', 't', 'u', 'r', 'e'] =>
    match l.drop 7 with
    | sep :: rest =>
      if sep = ':' || sep = '#' then
        let ds := (rest.dropWhile isWsChar).takeWhile Char.isDigit
        if ds = [] then none else some ds
      else none
    | [] => none
  | _ => none

/-- Leftmost match of `Feature[:#]\s*(\d+)` in the content. -/
def firstFeatureMatch : List Char → Option (List Char)
  | [] => none
  | c :: rest =>
    match matchFeatureAt (c :: rest) with
    | some ds => some ds
    | none => firstFeatureMatch rest

/-- Try `Closes #(\d+)` (flag `i`) at the current position. -/
def matchClosesAt (l : List Char) : Option (List Char) :=
  match (l.take 8).map Char.toLower with
  | ['c', 'l', 'o', 's', 'e', 's', ' ', '#'] =>
    let ds := (l.drop 8).takeWhile Char.isDigit
    if ds = [] then none else some ds
  | _ => none

/-- Leftmost match of `Closes #(\d+)` in the content. -/
def firstClosesMatch : List Char → Option (List Char)
  | [] => none
  | c :: rest =>
    match matchClosesAt (c :: rest) with
    | some ds => some ds
    | none => firstClosesMatch rest

/-- `featureId` of the loaded story (`local-github.ts:129-132`): the capture
of the first matching pattern, still a string, or `"0"`. -/
def featureIdOf (content : String) : String :=
  match firstFeatureMatch content.data with
  | some ds => String.mk ds
  | none =>
    match firstClosesMatch content.data with
    | some ds => String.mk ds
    | none => "0"

/-! ## Basic lemmas about the merge recursion -/

theorem updateGo_nil (tasks : List Task) (inT : Bool) : updateGo tasks inT [] = [] := by
  rw [updateGo]

theorem updateGo_cons (tasks : List Task) (inT : Bool) (l : List Char)
    (rest : List (List Char)) :
    updateGo tasks inT (l :: rest) =
      if isTasksHeading l then
        l :: ((noteSplit rest).1 ++ [] ::
          (renderTasks tasks ++ updateGo tasks true ((noteSplit rest).2.dropWhile skipLine)))
      else if inT && isNextHeading l then
        l :: updateGo tasks false rest
      else if !inT then
        l :: updateGo tasks false rest
      else
        updateGo tasks true rest := by
  rw [updateGo]

/-- The fuel-indexed recursion agrees with `updateGo` as soon as the fuel
covers the number of lines. -/
theorem updateGoF_eq (tasks : List Task) :
    ∀ (f : Nat) (inT : Bool) (lines : List (List Char)), lines.length ≤ f →
      updateGoF tasks f inT lines = updateGo tasks inT lines := by
  intro f
  induction f with
  | zero =>
    intro inT lines hle
    have hl : lines = [] := List.length_eq_zero.mp (Nat.le_zero.mp hle)
    subst hl
    rw [updateGo_nil]
    rfl
  | succ f ih =>
    intro inT lines hle
    cases lines with
    | nil => rw [updateGo_nil]; rfl
    | cons l rest =>
      have hr : rest.length ≤ f := by
        simpa [Nat.succ_le_succ_iff] using hle
      rw [updateGo_cons]
      show (if isTasksHeading l then _ else _) = _
      by_cases h1 : isTasksHeading l
      · simp only [h1, if_true]
        rw [ih true _ (le_trans (le_trans (dropWhile_length_le _ _)
          (noteSplit_snd_length_le rest)) hr)]
      · by_cases h2 : isNextHeading l
        · cases inT with
          | true => simp [h1, h2, ih false rest hr]
          | false => simp [h1, h2, ih false rest hr]
        · cases inT with
          | true => simp [h1, h2, ih true rest hr]
          | false => simp [h1, h2, ih false rest hr]

/-- Rewriting form of `updateGoF_eq`, used to evaluate the merge on concrete
documents. -/
theorem updateGo_eq_fuel (tasks : List Task) (inT : Bool) (lines : List (List Char)) :
    updateGo tasks inT lines = updateGoF tasks lines.length inT lines :=
  (updateGoF_eq tasks lines.length inT lines (le_refl _)).symm

/-! ## Split and join -/

theorem splitLinesCh_ne_nil (l : List Char) : splitLinesCh l ≠ [] := by
  cases l with
  | nil => simp [splitLinesCh]
  | cons c rest =>
    rw [splitLinesCh]
    by_cases h : c = '\n'
    · rw [if_pos h]; simp
    · rw [if_neg h]
      cases splitLinesCh rest <;> simp

theorem joinLinesCh_splitLinesCh (l : List Char) :
    joinLinesCh (splitLinesCh l) = l := by
  induction l with
  | nil => rfl
  | cons c rest ih =>
    rw [splitLinesCh]
    by_cases h : c = '\n'
    · rw [if_pos h]
      cases hsp : splitLinesCh rest with
      | nil => exact absurd hsp (splitLinesCh_ne_nil rest)
      | cons x xs =>
        rw [hsp] at ih
        rw [joinLinesCh, ih, h]
        rfl
    · rw [if_neg h]
      cases hsp : splitLinesCh rest with
      | nil => exact absurd hsp (splitLinesCh_ne_nil rest)
      | cons x xs =>
        rw [hsp] at ih
        cases xs with
        | nil =>
          rw [joinLinesCh] at ih
          show joinLinesCh [c :: x] = c :: rest
          rw [joinLinesCh, ih]
        | cons y ys =>
          rw [joinLinesCh] at ih
          show joinLinesCh ((c :: x) :: y :: ys) = c :: rest
          rw [joinLinesCh, ← ih]
          rfl

/-- Lines produced by the split never contain a newline. -/
theorem splitLinesCh_no_newline (l : List Char) :
    ∀ x ∈ splitLinesCh l, '\n' ∉ x := by
  induction l with
  | nil =>
    intro x hx
    simp [splitLinesCh] at hx
    simp [hx]
  | cons c rest ih =>
    intro x hx
    rw [splitLinesCh] at hx
    by_cases h : c = '\n'
    · rw [if_pos h] at hx
      rcases List.mem_cons.mp hx with hx | hx
      · simp [hx]
      · exact ih x hx
    · rw [if_neg h] at hx
      cases hsp : splitLinesCh rest with
      | nil => exact absurd hsp (splitLinesCh_ne_nil rest)
      | cons y ys =>
        rw [hsp] at hx
        rcases List.mem_cons.mp hx with hx | hx
        · subst hx
          intro hmem
          rcases List.mem_cons.mp hmem with hc | hc
          · exact h hc.symm
          · exact ih y (by rw [hsp]; exact List.mem_cons_self y ys) hc
        · exact ih x (by rw [hsp]; exact List.mem_cons_of_mem y hx)

/-- Splitting a single newline-free line gives it back. -/
theorem splitLinesCh_single (x : List Char) (hx : '\n' ∉ x) :
    splitLinesCh x = [x] := by
  induction x with
  | nil => rfl
  | cons c t iht =>
    have hc : c ≠ '\n' := fun hc => hx (hc ▸ List.mem_cons_self c t)
    have ht : '\n' ∉ t := fun hm => hx (List.mem_cons_of_mem c hm)
    rw [splitLinesCh, if_neg hc, iht ht]

/-- The split inverts the join when no line contains a newline. -/
theorem splitLinesCh_joinLinesCh (L : List (List Char)) (h : ∀ x ∈ L, '\n' ∉ x)
    (hne : L ≠ []) : splitLinesCh (joinLinesCh L) = L := by
  induction L with
  | nil => exact absurd rfl hne
  | cons x xs ih =>
    have hx : '\n' ∉ x := h x (List.mem_cons_self x xs)
    cases xs with
    | nil => exact splitLinesCh_single x hx
    | cons y ys =>
      have hrec : splitLinesCh (joinLinesCh (y :: ys)) = y :: ys :=
        ih (fun z hz => h z (List.mem_cons_of_mem x hz)) (by simp)
      show splitLinesCh (x ++ '\n' :: joinLinesCh (y :: ys)) = x :: y :: ys
      clear h ih hne
      induction x with
      | nil =>
        rw [List.nil_append, splitLinesCh, if_pos rfl, hrec]
      | cons c t iht =>
        have hc : c ≠ '\n' := fun hc => hx (hc ▸ List.mem_cons_self c t)
        have ht : '\n' ∉ t := fun hm => hx (List.mem_cons_of_mem c hm)
        rw [List.cons_append, splitLinesCh, if_neg hc, iht ht]

/-! ## Shape facts about headings and skip lines -/

/-- A line recognised as a heading (plain or Tasks) starts with two hashes. -/
theorem isNextHeading_shape (l : List Char) (h : isNextHeading l = true) :
    ∃ rest, l = '#' :: '#' :: rest := by
  unfold isNextHeading at h
  split at h
  · rename_i r
    exact ⟨r, rfl⟩
  · exact absurd h (by simp)

theorem isTasksHeading_isNextHeading (l : List Char) (h : isTasksHeading l = true) :
    isNextHeading l = true := by
  unfold isTasksHeading at h
  split at h
  · rfl
  · exact absurd h (by simp)

/-- A line accepted by the skip predicate is neither kind of heading. -/
theorem skipLine_not_heading (l : List Char) (h : skipLine l = true) :
    isTasksHeading l = false ∧ isNextHeading l = false := by
  have hnext : isNextHeading l = false := by
    by_contra hn
    have hn' : isNextHeading l = true := by
      cases hv : isNextHeading l
      · exact absurd hv hn
      · rfl
    obtain ⟨rest, hrest⟩ := isNextHeading_shape l hn'
    subst hrest
    simp [skipLine, isWsChar] at h
  constructor
  · by_contra ht
    have ht' : isTasksHeading l = true := by
      cases hv : isTasksHeading l
      · exact absurd hv ht
      · rfl
    rw [isTasksHeading_isNextHeading l ht'] at hnext
    exact absurd hnext (by simp)
  · exact hnext

/-- A heading starting with two hashes is never accepted by the skip
predicate. -/
theorem isNextHeading_not_skip (l : List Char) (h : isNextHeading l = true) :
    skipLine l = false := by
  obtain ⟨rest, hrest⟩ := isNextHeading_shape l h
  subst hrest
  simp [skipLine, isWsChar]

/-! ## Behaviour of the merge outside the Tasks region -/

/-- With `inTasksSection` false and no Tasks heading present, every line is
copied verbatim. -/
theorem updateGo_no_heading (tasks : List Task) (L : List (List Char))
    (h : ∀ l ∈ L, isTasksHeading l = false) :
    updateGo tasks false L = L := by
  induction L with
  | nil => exact updateGo_nil tasks false
  | cons l rest ih =>
    rw [updateGo_cons]
    have h1 : isTasksHeading l = false := h l (List.mem_cons_self l rest)
    simp only [h1, Bool.false_eq_true, if_false, Bool.false_and, Bool.not_false, if_true]
    rw [ih (fun x hx => h x (List.mem_cons_of_mem l hx))]

/-- A heading-free prefix passes through the merge untouched. -/
theorem updateGo_false_append (tasks : List Task) (P rest : List (List Char))
    (h : ∀ l ∈ P, isTasksHeading l = false) :
    updateGo tasks false (P ++ rest) = P ++ updateGo tasks false rest := by
  induction P with
  | nil => rfl
  | cons l P' ih =>
    rw [List.cons_append, updateGo_cons]
    have h1 : isTasksHeading l = false := h l (List.mem_cons_self l P')
    simp only [h1, Bool.false_eq_true, if_false, Bool.false_and, Bool.not_false, if_true]
    rw [ih (fun x hx => h x (List.mem_cons_of_mem l hx))]
    rfl

/-- Inside the Tasks region, lines that are neither a Tasks heading nor a
plain `##` heading are dropped. -/
theorem updateGo_true_drop (tasks : List Task) (M S : List (List Char))
    (hM : ∀ l ∈ M, isTasksHeading l = false ∧ isNextHeading l = false) :
    updateGo tasks true (M ++ S) = updateGo tasks true S := by
  induction M with
  | nil => rfl
  | cons l M' ih =>
    rw [List.cons_append, updateGo_cons]
    have h1 := hM l (List.mem_cons_self l M')
    simp only [h1.1, h1.2, Bool.false_eq_true, if_false, Bool.true_and, Bool.not_true]
    exact ih (fun x hx => hM x (List.mem_cons_of_mem l hx))

/-- The Tasks region ends at the next `##` heading: from there everything is
copied verbatim again (provided no further Tasks heading appears). -/
theorem updateGo_true_id (tasks : List Task) (S : List (List Char))
    (hS : ∀ l ∈ S, isTasksHeading l = false)
    (hS2 : S = [] ∨ ∃ s r, S = s :: r ∧ isNextHeading s = true) :
    updateGo tasks true S = S := by
  rcases hS2 with rfl | ⟨s, r, rfl, hs⟩
  · exact updateGo_nil tasks true
  · rw [updateGo_cons]
    have h1 : isTasksHeading s = false := hS s (List.mem_cons_self s r)
    simp only [h1, Bool.false_eq_true, if_false, hs, Bool.true_and, if_true]
    rw [updateGo_no_heading tasks r (fun x hx => hS x (List.mem_cons_of_mem s hx))]

theorem noteSplit_no_note (rest : List (List Char))
    (h : ∀ l, rest.head? = some l → containsNote l = false) :
    noteSplit rest = ([], rest) := by
  cases rest with
  | nil => rfl
  | cons n r =>
    have := h n rfl
    simp [noteSplit, this]

/-- The skip run consumes an all-skip block and stops at an empty or
non-skip remainder. -/
theorem dropWhile_skip_append (B S : List (List Char))
    (hB : ∀ l ∈ B, skipLine l = true) :
    (B ++ S).dropWhile skipLine = S.dropWhile skipLine := by
  induction B with
  | nil => rfl
  | cons l B' ih =>
    rw [List.cons_append, List.dropWhile_cons,
      if_pos (hB l (List.mem_cons_self l B'))]
    exact ih (fun x hx => hB x (List.mem_cons_of_mem l hx))

/-- `dropWhile` distributes over an append whose right part is empty or
starts with a non-skip line. -/
theorem dropWhile_append_stop (M S : List (List Char))
    (hS : S = [] ∨ ∃ s r, S = s :: r ∧ skipLine s = false) :
    (M ++ S).dropWhile skipLine = M.dropWhile skipLine ++ S := by
  induction M with
  | nil =>
    rcases hS with rfl | ⟨s, r, rfl, hs⟩
    · rfl
    · simp [List.dropWhile_cons, hs]
  | cons l M' ih =>
    rw [List.cons_append, List.dropWhile_cons, List.dropWhile_cons]
    by_cases hl : skipLine l
    · rw [if_pos hl, if_pos hl, ih]
    · rw [if_neg hl, if_neg hl, List.cons_append]

/-- The merge at the Tasks heading, with no developer-note line following:
heading kept, blank line and fresh checklist spliced, skip run dropped,
recursion continues in the Tasks region. -/
theorem updateGo_at_heading (tasks : List Task) (P X : List (List Char)) (h : List Char)
    (hP : ∀ l ∈ P, isTasksHeading l = false)
    (hh : isTasksHeading h = true)
    (hnote : ∀ l, X.head? = some l → containsNote l = false) :
    updateGo tasks false (P ++ h :: X) =
      P ++ h :: [] :: (renderTasks tasks ++ updateGo tasks true (X.dropWhile skipLine)) := by
  rw [updateGo_false_append tasks P (h :: X) hP]
  congr 1
  rw [updateGo_cons]
  simp only [hh, if_true]
  rw [noteSplit_no_note X hnote]
  rfl

theorem noteSplit_note (x : List Char) (rest : List (List Char))
    (hx : containsNote x = true) : noteSplit (x :: rest) = ([x], rest) := by
  simp [noteSplit, hx]

/-- The merge at the Tasks heading when a developer-note line follows: the
note line is preserved between the heading and the spliced blank line and
checklist (`update-task.ts:244-251`). -/
theorem updateGo_at_heading_note (tasks : List Task) (P X : List (List Char))
    (h x : List Char)
    (hP : ∀ l ∈ P, isTasksHeading l = false)
    (hh : isTasksHeading h = true)
    (hx : containsNote x = true) :
    updateGo tasks false (P ++ h :: x :: X) =
      P ++ h :: x :: [] ::
        (renderTasks tasks ++ updateGo tasks true (X.dropWhile skipLine)) := by
  rw [updateGo_false_append tasks P (h :: x :: X) hP]
  congr 1
  rw [updateGo_cons]
  simp only [hh, if_true]
  rw [noteSplit_note x X hx]
  rfl

/-- Merge of a well-formed document: heading-free prefix, Tasks heading, an
all-skip checklist block, then either nothing or a `##`-headed suffix free of
further Tasks headings.  Output: prefix verbatim, heading, blank line, fresh
checklist, suffix verbatim. -/
theorem updateGo_shape (tasks : List Task) (P B S : List (List Char)) (h : List Char)
    (hP : ∀ l ∈ P, isTasksHeading l = false)
    (hh : isTasksHeading h = true)
    (hB : ∀ l ∈ B, skipLine l = true)
    (hnote : ∀ l, (B ++ S).head? = some l → containsNote l = false)
    (hS : ∀ l ∈ S, isTasksHeading l = false)
    (hS2 : S = [] ∨ ∃ s r, S = s :: r ∧ isNextHeading s = true) :
    updateGo tasks false (P ++ h :: (B ++ S)) =
      P ++ h :: [] :: (renderTasks tasks ++ S) := by
  rw [updateGo_at_heading tasks P (B ++ S) h hP hh hnote]
  rw [dropWhile_skip_append B S hB]
  have hSd : S.dropWhile skipLine = S := by
    rcases hS2 with rfl | ⟨s, r, rfl, hs⟩
    · rfl
    · rw [List.dropWhile_cons, if_neg (by simp [isNextHeading_not_skip s hs])]
  rw [hSd, updateGo_true_id tasks S hS hS2]

/-- Variant of `updateGo_shape` for a document whose line directly after the
Tasks heading is a developer-note line: that line is preserved before the
spliced blank line and checklist. -/
theorem updateGo_shape_note (tasks : List Task) (P B S : List (List Char)) (h x : List Char)
    (hP : ∀ l ∈ P, isTasksHeading l = false)
    (hh : isTasksHeading h = true)
    (hx : containsNote x = true)
    (hB : ∀ l ∈ B, skipLine l = true)
    (hS : ∀ l ∈ S, isTasksHeading l = false)
    (hS2 : S = [] ∨ ∃ s r, S = s :: r ∧ isNextHeading s = true) :
    updateGo tasks false (P ++ h :: x :: (B ++ S)) =
      P ++ h :: x :: [] :: (renderTasks tasks ++ S) := by
  rw [updateGo_at_heading_note tasks P (B ++ S) h x hP hh hx]
  rw [dropWhile_skip_append B S hB]
  have hSd : S.dropWhile skipLine = S := by
    rcases hS2 with rfl | ⟨s, r, rfl, hs⟩
    · rfl
    · rw [List.dropWhile_cons, if_neg (by simp [isNextHeading_not_skip s hs])]
  rw [hSd, updateGo_true_id tasks S hS hS2]

/-! ## Claim C2 -/

/-- C2: for a document without a `## Tasks` heading the merge of
`updateStoryFile` raises no error at all: it writes the document back
byte-identically, silently dropping the supplied task list (the
`tasksInserted` flag is computed at `update-task.ts:262` but never
consulted).  This refutes the claimed `MalformedDocument` error and
witnesses the code bug: the output never contains the supplied tasks. -/
theorem c2_no_heading_merge_writes_document_unchanged (d : String) (tasks : List Task)
    (h : ∀ l ∈ splitLinesCh d.data, isTasksHeading l = false) :
    updateStoryContent d tasks = d := by
  unfold updateStoryContent
  rw [updateGo_no_heading tasks _ h, joinLinesCh_splitLinesCh]

theorem c2_no_heading_merge_writes_document_unchanged_witness :
    updateStoryContent "# Title\nBody" [⟨"1", "A", false, none⟩] = "# Title\nBody" :=
  c2_no_heading_merge_writes_document_unchanged "# Title\nBody"
    [⟨"1", "A", false, none⟩] (by decide)

/-! ## Claim C3 -/

/-- C3 (counterexample): merging a document with its own unchanged decoded
task list is NOT byte-identical up to whitespace inside the checklist block.
If it were, deleting every whitespace character from both documents would
give equal strings; here the merge deletes the non-whitespace line `note`
(and rewrites `[X]` as `[x]`), so the whitespace-erased documents differ. -/
theorem c3_unchanged_merge_not_whitespace_identical :
    (updateStoryContent "## Tasks\n- [X] A\nnote\n## Next"
        (extractTasksFromContent "## Tasks\n- [X] A\nnote\n## Next")).data.filter
        (fun c => !isWsChar c)
      ≠ ("## Tasks\n- [X] A\nnote\n## Next" : String).data.filter (fun c => !isWsChar c) := by
  rw [updateStoryContent, updateGo_eq_fuel]
  decide

/-- C3 (amended): merging a document with its own unchanged decoded task
list keeps all text before the Tasks heading and all text from the next `##`
heading onward verbatim (when that suffix holds no further Tasks heading),
and replaces everything between by a blank line and the freshly rendered
checklist — except that a developer-note line (one containing the phrase
`Break this story down`) directly after the heading is preserved before the
splice (`N` below is that optional note line); non-checklist lines caught
between the checklist run and the next `##` heading are deleted, so the
result is byte-identical outside that region only. -/
theorem c3_unchanged_merge_frame (d : String) (P N B S : List (List Char)) (h : List Char)
    (hsplit : splitLinesCh d.data = P ++ h :: (N ++ (B ++ S)))
    (hP : ∀ l ∈ P, isTasksHeading l = false)
    (hh : isTasksHeading h = true)
    (hB : ∀ l ∈ B, skipLine l = true)
    (hN : (N = [] ∧ ∀ l, (B ++ S).head? = some l → containsNote l = false)
        ∨ (∃ x, N = [x] ∧ containsNote x = true))
    (hS : ∀ l ∈ S, isTasksHeading l = false)
    (hS2 : S = [] ∨ ∃ s r, S = s :: r ∧ isNextHeading s = true) :
    updateStoryContent d (extractTasksFromContent d)
      = String.mk (joinLinesCh (P ++ h :: (N ++ [] ::
          (renderTasks (extractTasksFromContent d) ++ S)))) := by
  unfold updateStoryContent
  rw [hsplit]
  rcases hN with ⟨rfl, hnote⟩ | ⟨x, rfl, hx⟩
  · simp only [List.nil_append]
    rw [updateGo_shape _ P B S h hP hh hB hnote hS hS2]
  · simp only [List.cons_append, List.nil_append]
    rw [updateGo_shape_note _ P B S h x hP hh hx hB hS hS2]

theorem c3_unchanged_merge_frame_witness :
    updateStoryContent
        "# T\n\n## Tasks\nBreak this story down into tasks\n- [ ] A\n## Next\ntail"
        (extractTasksFromContent
          "# T\n\n## Tasks\nBreak this story down into tasks\n- [ ] A\n## Next\ntail")
      = String.mk (joinLinesCh (["# T".data, []] ++ "## Tasks".data ::
          (["Break this story down into tasks".data] ++ [] ::
            (renderTasks (extractTasksFromContent
                "# T\n\n## Tasks\nBreak this story down into tasks\n- [ ] A\n## Next\ntail")
              ++ ["## Next".data, "tail".data])))) :=
  c3_unchanged_merge_frame _ ["# T".data, []]
    ["Break this story down into tasks".data] ["- [ ] A".data]
    ["## Next".data, "tail".data] "## Tasks".data
    (by decide) (by decide) (by decide) (by decide)
    (Or.inr ⟨"Break this story down into tasks".data, rfl, by decide⟩)
    (by decide)
    (Or.inr ⟨"## Next".data, ["tail".data], rfl, by decide⟩)

/-! ## Claim C9 -/

/-- C9 (counterexample): for the document `## Tasks` / note-phrase line /
`## Next`, the checklist run after the heading is empty, so the line
containing `Break this story down` lies in the region between the run and
the next `##` heading that the omission statement covers — yet the merge
(`update-task.ts:244-251`) preserves it, and it is a member of the output. -/
theorem c9_note_line_survives_in_omitted_region :
    updateGo ([] : List Task) false
        ["## Tasks".data, "XXX Break this story down YYY".data, "## Next".data]
      = ["## Tasks".data, "XXX Break this story down YYY".data, [], "## Next".data] ∧
    "XXX Break this story down YYY".data ∈
      updateGo ([] : List Task) false
        ["## Tasks".data, "XXX Break this story down YYY".data, "## Next".data] := by
  rw [updateGo_eq_fuel]
  decide

/-- C9 (amended): the merge omits every original line lying after the
contiguous run of checklist/blank lines that follows the `## Tasks` heading
and before the next `##` heading (the block `M` below); when no later `##`
heading exists (`S = []`) every such line is omitted — except that a
developer-note line containing `Break this story down` directly after the
heading (the optional line `N`) is preserved; beyond it, only
merge-generated lines (the blank line and the rendered checklist) appear in
that region. -/
theorem c9_merge_omits_region_except_note (tasks : List Task)
    (P N B M S : List (List Char)) (h : List Char)
    (hP : ∀ l ∈ P, isTasksHeading l = false)
    (hh : isTasksHeading h = true)
    (hB : ∀ l ∈ B, skipLine l = true)
    (hN : (N = [] ∧ ∀ l, (B ++ (M ++ S)).head? = some l → containsNote l = false)
        ∨ (∃ x, N = [x] ∧ containsNote x = true))
    (hM : ∀ l ∈ M, isTasksHeading l = false ∧ isNextHeading l = false)
    (hS : ∀ l ∈ S, isTasksHeading l = false)
    (hS2 : S = [] ∨ ∃ s r, S = s :: r ∧ isNextHeading s = true) :
    updateGo tasks false (P ++ h :: (N ++ (B ++ (M ++ S)))) =
      P ++ h :: (N ++ [] :: (renderTasks tasks ++ S)) := by
  have hS' : S = [] ∨ ∃ s r, S = s :: r ∧ skipLine s = false := by
    rcases hS2 with rfl | ⟨s, r, rfl, hs⟩
    · exact Or.inl rfl
    · exact Or.inr ⟨s, r, rfl, isNextHeading_not_skip s hs⟩
  rcases hN with ⟨rfl, hnote⟩ | ⟨x, rfl, hx⟩
  · simp only [List.nil_append]
    rw [updateGo_at_heading tasks P (B ++ (M ++ S)) h hP hh hnote]
    rw [dropWhile_skip_append B (M ++ S) hB]
    rw [dropWhile_append_stop M S hS']
    rw [updateGo_true_drop tasks (M.dropWhile skipLine) S
      (fun y hy => hM y ((List.dropWhile_sublist skipLine).subset hy))]
    rw [updateGo_true_id tasks S hS hS2]
  · simp only [List.cons_append, List.nil_append]
    rw [updateGo_at_heading_note tasks P (B ++ (M ++ S)) h x hP hh hx]
    rw [dropWhile_skip_append B (M ++ S) hB]
    rw [dropWhile_append_stop M S hS']
    rw [updateGo_true_drop tasks (M.dropWhile skipLine) S
      (fun y hy => hM y ((List.dropWhile_sublist skipLine).subset hy))]
    rw [updateGo_true_id tasks S hS hS2]

theorem c9_merge_omits_region_except_note_witness :
    updateGo [⟨"1", "A", true, none⟩] false
        (["intro".data] ++ "## Tasks".data ::
          (["note: Break this story down first".data] ++
            (["- [ ] old".data] ++ (["stray text".data, "more".data] ++ [])))) =
      ["intro".data] ++ "## Tasks".data ::
        (["note: Break this story down first".data] ++ [] ::
          (renderTasks [⟨"1", "A", true, none⟩] ++ [])) :=
  c9_merge_omits_region_except_note [⟨"1", "A", true, none⟩]
    ["intro".data] ["note: Break this story down first".data]
    ["- [ ] old".data] ["stray text".data, "more".data] []
    "## Tasks".data
    (by decide) (by decide) (by decide)
    (Or.inr ⟨"note: Break this story down first".data, rfl, by decide⟩)
    (by decide) (by decide)
    (Or.inl rfl)

/-! ## Claim C5 -/

/-- C5: the status deriver is a pure total function of the task list: `todo`
when the list is empty or no task is completed, `done` when the list is
non-empty and every task is completed, `in-progress` otherwise; it never
returns `review`; and its result is invariant under permutation of the task
list (it depends only on the counts of total vs. completed tasks). -/
theorem c5_status_deriver (tasks : List Task) :
    (tasks.all (fun t => !t.completed) = true → calculateStoryStatus tasks = .todo) ∧
    (tasks ≠ [] → tasks.all (·.completed) = true → calculateStoryStatus tasks = .done) ∧
    (tasks.any (·.completed) = true → tasks.any (fun t => !t.completed) = true →
      calculateStoryStatus tasks = .inProgress) ∧
    calculateStoryStatus tasks ≠ .review ∧
    (∀ tasks', tasks.Perm tasks' →
      calculateStoryStatus tasks = calculateStoryStatus tasks') := by
  refine ⟨?_, ?_, ?_, ?_, ?_⟩
  · intro hall
    have hk : (tasks.filter (·.completed)).length = 0 := by
      rw [List.length_eq_zero, List.filter_eq_nil_iff]
      intro a ha
      simpa using List.all_eq_true.mp hall a ha
    unfold calculateStoryStatus
    by_cases hn : tasks.length = 0
    · rw [if_pos hn]
    · rw [if_neg hn]
      simp [hk]
  · intro hne hall
    have hk : tasks.filter (·.completed) = tasks :=
      List.filter_eq_self.mpr (List.all_eq_true.mp hall)
    have hn : tasks.length ≠ 0 := by
      intro h0
      exact hne (List.length_eq_zero.mp h0)
    unfold calculateStoryStatus
    rw [if_neg hn]
    simp [hk, hn]
  · intro hsome hnot
    obtain ⟨a, ha, hac⟩ := List.any_eq_true.mp hsome
    have hkpos : 0 < (tasks.filter (·.completed)).length :=
      List.length_pos.mpr (fun hnil => by
        have := List.filter_eq_nil_iff.mp hnil a ha
        simp [hac] at this)
    have hklt : (tasks.filter (·.completed)).length < tasks.length := by
      rw [List.length_filter_lt_length_iff_exists]
      obtain ⟨b, hb, hbc⟩ := List.any_eq_true.mp hnot
      exact ⟨b, hb, by simpa using hbc⟩
    unfold calculateStoryStatus
    rw [if_neg (by omega)]
    simp only
    rw [if_neg (by omega), if_neg (by omega)]
  · unfold calculateStoryStatus
    simp only []
    split_ifs <;> simp
  · intro tasks' hperm
    have hlen : tasks.length = tasks'.length := hperm.length_eq
    have hflen : (tasks.filter (·.completed)).length
        = (tasks'.filter (·.completed)).length :=
      (hperm.filter (·.completed)).length_eq
    unfold calculateStoryStatus
    rw [hlen, hflen]

theorem c5_status_deriver_witness :
    calculateStoryStatus [⟨"1", "A", true, none⟩, ⟨"2", "B", false, none⟩]
      = .inProgress :=
  (c5_status_deriver [⟨"1", "A", true, none⟩, ⟨"2", "B", false, none⟩]).2.2.1
    (by decide) (by decide)

/-! ## Claim C4 -/

/-- The lookup environment of the spec's scenario 5: `bugs/42.md` exists as
an exact match, `tasks/142.md` as a substring match, and the `tasks`
directory is scanned before `bugs`. -/
def c4Env : List (String × Option (List FileEntry)) :=
  [("user-stories", some []), ("tasks", some [⟨"142.md", "x"⟩]),
   ("bugs", some [⟨"42.md", "y"⟩])]

/-- C4 (counterexample): with `bugs/42.md` (exact) and `tasks/142.md`
(substring) both present, lookup of `"42"` resolves to `tasks/142.md`, not
to `bugs/42.md`: the match predicate `file.includes(id) || file === id+".md"`
gives exact names no precedence, and the `tasks` directory is scanned first. -/
theorem c4_exact_match_does_not_win :
    findStoryEntry c4Env "42" = some ("tasks", ⟨"142.md", "x"⟩) ∧
    findStoryEntry c4Env "42" ≠ some ("bugs", ⟨"42.md", "y"⟩) := by
  constructor
  · decide
  · decide

/-- C4 (amended): lookup returns the first file — scanning the category
directories in their fixed order and each directory listing in order — whose
name contains the id as a substring or equals `{id}.md`; every file of every
earlier directory and every earlier file of the same directory fails that
predicate, so an exact match in a later directory never overrides an earlier
substring match. -/
theorem c4_lookup_is_first_match (dirs : List (String × Option (List FileEntry)))
    (id dname : String) (e : FileEntry)
    (hfind : findStoryEntry dirs id = some (dname, e)) :
    ∃ pre files post, dirs = pre ++ (dname, some files) :: post ∧
      storyFileMatches id e.name = true ∧
      (∃ fpre fpost, files = fpre ++ e :: fpost ∧
        ∀ e' ∈ fpre, storyFileMatches id e'.name = false) ∧
      ∀ p ∈ pre, ∀ fs, p.2 = some fs →
        ∀ e' ∈ fs, storyFileMatches id e'.name = false := by
  induction dirs with
  | nil => simp [findStoryEntry] at hfind
  | cons hd rest ih =>
    obtain ⟨d, ofiles⟩ := hd
    cases ofiles with
    | none =>
      rw [findStoryEntry] at hfind
      obtain ⟨pre, files, post, heq, hm, hin, hpre⟩ := ih hfind
      refine ⟨(d, none) :: pre, files, post, by rw [heq]; rfl, hm, hin, ?_⟩
      intro p hp fs hfs
      rcases List.mem_cons.mp hp with rfl | hp'
      · exact absurd hfs (by simp)
      · exact hpre p hp' fs hfs
    | some files =>
      rw [findStoryEntry] at hfind
      cases hf : files.find? (fun x => storyFileMatches id x.name) with
      | some e' =>
        rw [hf] at hfind
        obtain ⟨heq1, heq2⟩ : d = dname ∧ e' = e := by
          have := Option.some.inj hfind
          exact ⟨congrArg Prod.fst this, congrArg Prod.snd this⟩
        subst heq1; subst heq2
        obtain ⟨hmatch, fpre, fpost, hsplit, hbefore⟩ := List.find?_eq_some.mp hf
        refine ⟨[], files, rest, rfl, hmatch, ⟨fpre, fpost, hsplit, ?_⟩, by simp⟩
        intro e'' he''
        simpa using hbefore e'' he''
      | none =>
        rw [hf] at hfind
        obtain ⟨pre, files', post, heq, hm, hin, hpre⟩ := ih hfind
        refine ⟨(d, some files) :: pre, files', post, by rw [heq]; rfl, hm, hin, ?_⟩
        intro p hp fs hfs
        rcases List.mem_cons.mp hp with rfl | hp'
        · have hfs' : files = fs := by simpa using hfs
          subst hfs'
          intro e'' he''
          have := List.find?_eq_none.mp hf e'' he''
          simpa using this
        · exact hpre p hp' fs hfs

theorem c4_lookup_is_first_match_witness :
    ∃ pre files post,
      c4Env = pre ++ ("tasks", some files) :: post ∧
      storyFileMatches "42" (FileEntry.mk "142.md" "x").name = true ∧
      (∃ fpre fpost, files = fpre ++ (FileEntry.mk "142.md" "x") :: fpost ∧
        ∀ e' ∈ fpre, storyFileMatches "42" e'.name = false) ∧
      ∀ p ∈ pre, ∀ fs, p.2 = some fs →
        ∀ e' ∈ fs, storyFileMatches "42" e'.name = false :=
  c4_lookup_is_first_match c4Env "42" "tasks" ⟨"142.md", "x"⟩ (by decide)

/-! ## Claim C10 -/

/-- The scanner finds no `Feature[:#]\s*(\d+)` match exactly when no
position of the content starts one. -/
theorem firstFeatureMatch_eq_none_iff (l : List Char) :
    firstFeatureMatch l = none ↔ ∀ i, matchFeatureAt (l.drop i) = none := by
  induction l with
  | nil =>
    constructor
    · intro _ i
      rw [List.drop_nil]
      rfl
    · intro _
      rfl
  | cons c rest ih =>
    rw [firstFeatureMatch]
    cases hm : matchFeatureAt (c :: rest) with
    | some ds =>
      exact ⟨fun h => absurd h (by simp), fun h => absurd (h 0) (by simp [hm])⟩
    | none =>
      simp only
      constructor
      · intro h i
        cases i with
        | zero => exact hm
        | succ j => exact ih.mp h j
      · intro h
        exact ih.mpr (fun j => h (j + 1))

/-- The scanner finds no `Closes #(\d+)` match exactly when no position of
the content starts one. -/
theorem firstClosesMatch_eq_none_iff (l : List Char) :
    firstClosesMatch l = none ↔ ∀ i, matchClosesAt (l.drop i) = none := by
  induction l with
  | nil =>
    constructor
    · intro _ i
      rw [List.drop_nil]
      rfl
    · intro _
      rfl
  | cons c rest ih =>
    rw [firstClosesMatch]
    cases hm : matchClosesAt (c :: rest) with
    | some ds =>
      exact ⟨fun h => absurd h (by simp), fun h => absurd (h 0) (by simp [hm])⟩
    | none =>
      simp only
      constructor
      · intro h i
        cases i with
        | zero => exact hm
        | succ j => exact ih.mp h j
      · intro h
        exact ih.mpr (fun j => h (j + 1))

/-- C10 (counterexample): the patterns are matched against the whole
content, and the whitespace class of `Feature[:#]\s*(\d+)` includes the
newline, so a match may span a line break: in `"Feature:\n7"` no single line
matches either pattern, yet the loaded story's `featureId` is `"7"`, not
`"0"`. -/
theorem c10_feature_pattern_spans_lines :
    (∀ l ∈ splitLinesCh ("Feature:\n7" : String).data,
        firstFeatureMatch l = none ∧ firstClosesMatch l = none) ∧
    featureIdOf "Feature:\n7" = "7" := by
  constructor
  · decide
  · decide

/-- C10 (amended): when no position of the whole content starts a match of
`Feature[:#]\s*(\d+)` or of `Closes #(\d+)` — the patterns are applied to
the full content, not line by line, and their whitespace may span newlines —
the loaded story's `featureId` is the string `"0"`. -/
theorem c10_feature_id_defaults_to_zero (content : String)
    (h1 : ∀ i, matchFeatureAt (content.data.drop i) = none)
    (h2 : ∀ i, matchClosesAt (content.data.drop i) = none) :
    featureIdOf content = "0" := by
  have ha : firstFeatureMatch content.data = none :=
    (firstFeatureMatch_eq_none_iff content.data).mpr h1
  have hb : firstClosesMatch content.data = none :=
    (firstClosesMatch_eq_none_iff content.data).mpr h2
  unfold featureIdOf
  rw [ha, hb]

theorem c10_feature_id_defaults_to_zero_witness :
    featureIdOf "# T\nBody" = "0" :=
  c10_feature_id_defaults_to_zero "# T\nBody"
    ((firstFeatureMatch_eq_none_iff _).mp (by decide))
    ((firstClosesMatch_eq_none_iff _).mp (by decide))

/-! ## Claim C7 -/

/-- Modelled from the spec: `title` = the first non-blank line with a
leading `#`-run stripped (together with the whitespace separating it from
the title text); `""` for an entirely blank document. -/
def specTitleOf (content : String) : String :=
  match (splitLinesCh content.data).dropWhile (fun l => l.all isWsChar) with
  | [] => ""
  | l :: _ => String.mk ((l.dropWhile (fun c => c = '#')).dropWhile isWsChar)

/-- C7 (counterexample): the record parser takes `lines[0]` verbatim and
strips only the prefix `#` + whitespace (one hash); on
`"## My Title\n\nDesc"` it returns `"## My Title"`, not the claim's
first-non-blank-line-with-`#`-run-stripped `"My Title"`. -/
theorem c7_title_not_hash_run_stripped :
    (parseTitleDesc "## My Title\n\nDesc").1 = "## My Title" ∧
    specTitleOf "## My Title\n\nDesc" = "My Title" ∧
    (parseTitleDesc "## My Title\n\nDesc").1 ≠ specTitleOf "## My Title\n\nDesc" := by
  refine ⟨by decide, by decide, by decide⟩

/-- Every character of a line produced by the split occurs in the source. -/
theorem splitLinesCh_mem_subset (s : List Char) :
    ∀ l ∈ splitLinesCh s, ∀ c ∈ l, c ∈ s := by
  induction s with
  | nil =>
    intro l hl c hc
    simp [splitLinesCh] at hl
    subst hl
    simp at hc
  | cons a rest ih =>
    intro l hl c hc
    rw [splitLinesCh] at hl
    by_cases h : a = '\n'
    · rw [if_pos h] at hl
      rcases List.mem_cons.mp hl with rfl | hl'
      · simp at hc
      · exact List.mem_cons_of_mem a (ih l hl' c hc)
    · rw [if_neg h] at hl
      cases hsp : splitLinesCh rest with
      | nil => exact absurd hsp (splitLinesCh_ne_nil rest)
      | cons y ys =>
        rw [hsp] at hl
        rcases List.mem_cons.mp hl with rfl | hl'
        · rcases List.mem_cons.mp hc with rfl | hc'
          · exact List.mem_cons_self c rest
          · exact List.mem_cons_of_mem a
              (ih y (by rw [hsp]; exact List.mem_cons_self y ys) c hc')
        · exact List.mem_cons_of_mem a (ih l (by rw [hsp]; exact List.mem_cons_of_mem y hl') c hc)

/-- A line of only whitespace is returned unstripped by the title strip. -/
theorem stripTitleHash_of_all_ws (l : List Char) (h : l.all isWsChar = true) :
    stripTitleHash l = l := by
  unfold stripTitleHash
  split
  · exfalso
    simp [isWsChar] at h
  · rfl

/-- C7 (amended): the record parser's title is `lines[0]` — blank or not —
with only a single leading `#` plus following whitespace stripped; its
description is the text from the first non-blank line after line 0, trimmed;
a document of only whitespace yields its first line verbatim as title and an
empty description, and the empty document yields `("", "")`. -/
theorem c7_title_description_parse (content : String) :
    (parseTitleDesc content).1
        = String.mk (stripTitleHash (splitLinesCh content.data).headI) ∧
    (parseTitleDesc content).2
        = String.mk (jsTrim (joinLinesCh
            ((splitLinesCh content.data).tail.dropWhile (fun l => l.all isWsChar)))) ∧
    (content.data.all isWsChar = true →
      parseTitleDesc content = (String.mk (splitLinesCh content.data).headI, "")) ∧
    parseTitleDesc "" = ("", "") := by
  refine ⟨rfl, rfl, ?_, rfl⟩
  intro hws
  have hlines : ∀ l ∈ splitLinesCh content.data, l.all isWsChar = true := by
    intro l hl
    rw [List.all_eq_true]
    intro c hc
    exact List.all_eq_true.mp hws c (splitLinesCh_mem_subset content.data l hl c hc)
  have hdrop : (splitLinesCh content.data).tail.dropWhile (fun l => l.all isWsChar) = [] := by
    rw [List.dropWhile_eq_nil_iff]
    intro l hl
    simp [hlines l (List.mem_of_mem_tail hl)]
  have htitle : stripTitleHash (splitLinesCh content.data).headI
      = (splitLinesCh content.data).headI := by
    cases hsp : splitLinesCh content.data with
    | nil => exact absurd hsp (splitLinesCh_ne_nil content.data)
    | cons x xs =>
      exact stripTitleHash_of_all_ws x
        (hlines x (by rw [hsp]; exact List.mem_cons_self x xs))
  show (String.mk (stripTitleHash (splitLinesCh content.data).headI),
      String.mk (jsTrim (joinLinesCh
        ((splitLinesCh content.data).tail.dropWhile (fun l => l.all isWsChar))))) = _
  rw [hdrop, htitle]
  rfl

theorem c7_title_description_parse_witness :
    parseTitleDesc " \n " = (" ", "") :=
  (c7_title_description_parse " \n ").2.2.1 (by decide)

/-! ## Claim C8 -/

theorem jsIncludesCh_nil (l : List Char) : jsIncludesCh l [] = true := by
  cases l with
  | nil => rfl
  | cons c t =>
    show (([] : List Char).isPrefixOf (c :: t) || jsIncludesCh t []) = true
    simp [List.isPrefixOf]

/-- `includes` holds for any contiguous occurrence. -/
theorem jsIncludesCh_of_infix (sub l : List Char) (h : sub <:+: l) :
    jsIncludesCh l sub = true := by
  obtain ⟨s, t, rfl⟩ := h
  induction s with
  | nil =>
    rw [List.nil_append]
    cases hsub : sub with
    | nil => exact jsIncludesCh_nil t
    | cons a s' =>
      show ((a :: s').isPrefixOf (a :: s' ++ t) || jsIncludesCh (s' ++ t) (a :: s')) = true
      have hpre : ∀ (u v : List Char), u.isPrefixOf (u ++ v) = true := by
        intro u v
        induction u with
        | nil => simp [List.isPrefixOf]
        | cons b u' ihu => simp [List.isPrefixOf, ihu]
      rw [show a :: s' ++ t = (a :: s') ++ t from rfl, hpre]
      rfl
  | cons a s' ih =>
    rw [List.cons_append]
    show (sub.isPrefixOf (a :: (s' ++ sub ++ t)) || jsIncludesCh (s' ++ sub ++ t) sub) = true
    rw [ih, Bool.or_true]

/-- Every element of a joined line list occurs contiguously in the join. -/
theorem infix_joinLinesCh (L : List (List Char)) (x : List Char) (hx : x ∈ L) :
    x <:+: joinLinesCh L := by
  induction L with
  | nil => simp at hx
  | cons y ys ih =>
    rcases List.mem_cons.mp hx with rfl | hx'
    · cases ys with
      | nil => exact List.infix_refl x
      | cons z zs =>
        show x <:+: x ++ '\n' :: joinLinesCh (z :: zs)
        exact ⟨[], '\n' :: joinLinesCh (z :: zs), rfl⟩
    · have hrec := ih hx'
      cases ys with
      | nil => simp at hx'
      | cons z zs =>
        have hsuff : joinLinesCh (z :: zs) <:+: joinLinesCh (y :: z :: zs) := by
          show joinLinesCh (z :: zs) <:+: y ++ '\n' :: joinLinesCh (z :: zs)
          exact ⟨y ++ ['\n'], [], by simp⟩
        exact hrec.trans hsuff

/-- C8 (counterexample): the story lookup environment holds another story
`bugs/99.md`, but the story not-found error mentions only the attempted id —
the candidate id `99` appears nowhere in it, so the error carries no
candidate list. -/
theorem c8_story_error_lacks_candidates :
    fetchStoryLocate [("user-stories", some []), ("tasks", some []),
        ("bugs", some [⟨"99.md", "body"⟩])] "42"
      = .error (storyNotFoundMsg "42") ∧
    jsIncludesCh (storyNotFoundMsg "42").data "99".data = false := by
  refine ⟨rfl, by decide⟩

/-- C8 (amended): when feature lookup matches no file its error carries the
attempted id and the listing of every `.md` candidate (each with `.md`
stripped); when story lookup matches no file its error carries the attempted
id only — no candidate list. -/
theorem c8_not_found_errors (files : List String)
    (dirs : List (String × Option (List FileEntry))) (fid sid : String) :
    (files.find? (featureFileMatches fid) = none →
      fetchFeatureLocate files fid = .error (featureNotFoundMsg fid files)) ∧
    jsIncludesCh (featureNotFoundMsg fid files).data fid.data = true ∧
    (∀ f ∈ files, endsWithMd f = true →
      jsIncludesCh (featureNotFoundMsg fid files).data (replaceFirstMd f.data) = true) ∧
    (findStoryEntry dirs sid = none →
      fetchStoryLocate dirs sid = .error (storyNotFoundMsg sid)) ∧
    storyNotFoundMsg sid = "Story #" ++ sid ++ " not found in any story directories" := by
  have hdata : (featureNotFoundMsg fid files).data
      = ("Feature #" ++ fid ++ " not found. Available features:\n").data
        ++ joinLinesCh ((files.filter endsWithMd).mapIdx featureListEntry) := rfl
  refine ⟨?_, ?_, ?_, ?_, rfl⟩
  · intro hnone
    unfold fetchFeatureLocate
    rw [hnone]
  · apply jsIncludesCh_of_infix
    rw [hdata, String.data_append, String.data_append]
    exact ⟨"Feature #".data,
      " not found. Available features:\n".data
        ++ joinLinesCh ((files.filter endsWithMd).mapIdx featureListEntry),
      by simp⟩
  · intro f hf hmd
    apply jsIncludesCh_of_infix
    have hmem : f ∈ files.filter endsWithMd := List.mem_filter.mpr ⟨hf, hmd⟩
    obtain ⟨i, hi, hget⟩ := List.mem_iff_getElem.mp hmem
    have hentry : featureListEntry i f
        ∈ (files.filter endsWithMd).mapIdx featureListEntry := by
      rw [List.mem_iff_getElem]
      refine ⟨i, by simpa using hi, ?_⟩
      rw [List.getElem_mapIdx, hget]
    have h1 : replaceFirstMd f.data <:+: featureListEntry i f := by
      show replaceFirstMd f.data <:+:
        ' ' :: ' ' :: natToDecCh (i + 1) ++ '.' :: ' ' :: replaceFirstMd f.data
      exact ⟨' ' :: ' ' :: natToDecCh (i + 1) ++ ['.', ' '], [], by simp⟩
    have h2 := infix_joinLinesCh _ _ hentry
    rw [hdata]
    exact (h1.trans h2).trans
      ⟨("Feature #" ++ fid ++ " not found. Available features:\n").data, [], by simp⟩
  · intro hnone
    unfold fetchStoryLocate
    rw [hnone]

theorem c8_not_found_errors_witness :
    fetchFeatureLocate ["7.md"] "42" = .error (featureNotFoundMsg "42" ["7.md"]) ∧
    jsIncludesCh (featureNotFoundMsg "42" ["7.md"]).data
      (replaceFirstMd ("7.md" : String).data) = true :=
  ⟨(c8_not_found_errors ["7.md"] [] "42" "1").1 (by decide),
   (c8_not_found_errors ["7.md"] [] "42" "1").2.2.1 "7.md" (by decide) (by decide)⟩

/-! ## Claim C6 -/

/-- Decoded line results paired with their 1-based match order as ids. -/
def withTaskIds : Nat → List (Bool × List Char × Option Nat) → List Task
  | _, [] => []
  | n, (comp, desc, pr) :: rs =>
    ⟨toString n, String.mk desc, comp, pr⟩ :: withTaskIds (n + 1) rs

/-- The imperative counter of `extractTasksFromContent` is the 1-based
enumeration of the lines that decode. -/
theorem extractGo_eq_withTaskIds (L : List (List Char)) :
    ∀ n, extractGo n L = withTaskIds n (L.filterMap decodeTaskLine) := by
  induction L with
  | nil => intro n; rfl
  | cons l ls ih =>
    intro n
    cases hd : decodeTaskLine l with
    | some r =>
      obtain ⟨comp, desc, pr⟩ := r
      simp [extractGo, hd, List.filterMap_cons, ih, withTaskIds]
    | none =>
      simp [extractGo, hd, List.filterMap_cons, ih]

/-- Modelled from the spec: the claim's checkbox grammar, read strictly —
optional whitespace, optional `-`, `[`, one of `x`/`X`/space, `]`, required
whitespace, text. -/
def specParseTaskLine (l : List Char) : Option (Char × List Char) :=
  let r1 := l.dropWhile isWsChar
  let r2 := match r1 with
    | '-' :: t => t.dropWhile isWsChar
    | _ => r1
  match r2 with
  | '[' :: c :: ']' :: rest =>
    if c = 'x' || c = 'X' || c = ' ' then
      match rest with
      | w :: rest' =>
        if isWsChar w then
          let txt := rest'.dropWhile isWsChar
          if txt = [] then none else some (c, txt)
        else none
      | [] => none
    else none
  | _ => none

/-- Modelled from the spec: description = the captured text with any
trailing `(#<digits>)` removed (surrounding whitespace trimmed), the digit
group captured as the PR number. -/
def specStripTrailingPr (text : List Char) : List Char × Option Nat :=
  match text.reverse with
  | ')' :: rest' =>
    let ds' := rest'.takeWhile Char.isDigit
    if ds' = [] then (text, none)
    else
      match rest'.drop ds'.length with
      | '#' :: '(' :: base' => (jsTrim base'.reverse, some (digitsToNat ds'.reverse))
      | _ => (text, none)
  | _ => (text, none)

/-- Modelled from the spec: the per-line decode described by the claim. -/
def specDecodeTaskLine (l : List Char) : Option (Bool × List Char × Option Nat) :=
  match specParseTaskLine l with
  | some (c, txt) =>
    some (c = 'x' || c = 'X', (specStripTrailingPr txt).1, (specStripTrailingPr txt).2)
  | none => none

/-- Modelled from the spec: the document decode described by the claim. -/
def specDecodeTasks (content : String) : List Task :=
  withTaskIds 1 ((splitLinesCh content.data).filterMap specDecodeTaskLine)

/-- C6 (counterexample): on `"- [ ] a (#1) b"` the decoder removes the
FIRST parenthesised PR reference wherever it sits — description `"a b"`,
`prNumber 1` — while the claim's trailing-only removal would leave the
description `"a (#1) b"` with no PR number. -/
theorem c6_decode_differs_from_claim_grammar :
    extractTasksFromContent "- [ ] a (#1) b" ≠ specDecodeTasks "- [ ] a (#1) b" ∧
    extractTasksFromContent "- [ ] a (#1) b" = [⟨"1", "a b", false, some 1⟩] ∧
    specDecodeTasks "- [ ] a (#1) b" = [⟨"1", "a (#1) b", false, none⟩] := by
  refine ⟨by decide, by decide, by decide⟩

/-- C6 (amended): the decoder scans every line of the document, independent
of section boundaries; every line matching the checkbox regex (optional
whitespace, optional `-`, `[`, one of `x`/`X`/whitespace, `]`, optional
whitespace, non-empty text) becomes a task whose id is its 1-based match
order, completed iff the checkbox is `x`/`X`, whose description is the
captured text with the first `(#<digits>)` occurrence (and the whitespace
before it) removed and trimmed, that digit group becoming `prNumber`; the
spec's example document decodes exactly as stated. -/
theorem c6_decode_scans_every_line (content : String) :
    extractTasksFromContent content
      = withTaskIds 1 ((splitLinesCh content.data).filterMap decodeTaskLine) ∧
    extractTasksFromContent "# Title\n\nDesc\n\n## Tasks\n\n- [ ] A\n- [x] B (#7)\n"
      = [⟨"1", "A", false, none⟩, ⟨"2", "B", true, some 7⟩] :=
  ⟨extractGo_eq_withTaskIds _ 1, by decide⟩

/-! ## Decimal rendering round trip (for Claim C1) -/

theorem decDigitChar_props (d : Nat) (hd : d < 10) :
    (decDigitChar d).toNat - 48 = d ∧ (decDigitChar d).isDigit = true ∧
    dotOk (decDigitChar d) = true ∧ isWsChar (decDigitChar d) = false := by
  interval_cases d <;> refine ⟨by decide, by decide, by decide, by decide⟩

theorem natToDecAux_acc (f : Nat) :
    ∀ n acc, n < f → natToDecAux f n acc = natToDecAux f n [] ++ acc := by
  induction f with
  | zero => intro n acc h; omega
  | succ f ih =>
    intro n acc h
    by_cases h10 : n < 10
    · simp [natToDecAux, h10]
    · have hdiv : n / 10 < f := by
        have h1 : n / 10 < n := Nat.div_lt_self (by omega) (by omega)
        omega
      rw [natToDecAux, if_neg h10, natToDecAux, if_neg h10]
      rw [ih (n / 10) (decDigitChar (n % 10) :: acc) hdiv,
        ih (n / 10) [decDigitChar (n % 10)] hdiv]
      simp

theorem natToDecAux_fuel (f g : Nat) :
    ∀ n, n < f → n < g → natToDecAux f n [] = natToDecAux g n [] := by
  induction f generalizing g with
  | zero => intro n h; omega
  | succ f ih =>
    intro n hf hg
    cases g with
    | zero => omega
    | succ g =>
      by_cases h10 : n < 10
      · simp [natToDecAux, h10]
      · have h1 : n / 10 < n := Nat.div_lt_self (by omega) (by omega)
        rw [natToDecAux, if_neg h10, natToDecAux, if_neg h10]
        rw [natToDecAux_acc f (n / 10) [decDigitChar (n % 10)] (by omega),
          natToDecAux_acc g (n / 10) [decDigitChar (n % 10)] (by omega)]
        rw [ih g (n / 10) (by omega) (by omega)]

/-- The rendered digits of a natural number, read back with the decoder's
fold, give the number back. -/
theorem digitsToNat_natToDecCh (n : Nat) : digitsToNat (natToDecCh n) = n := by
  have main : ∀ f n, n < f → digitsToNat (natToDecAux f n []) = n := by
    intro f
    induction f with
    | zero => intro n h; omega
    | succ f ih =>
      intro n h
      by_cases h10 : n < 10
      · rw [natToDecAux, if_pos h10]
        show List.foldl _ 0 [decDigitChar n] = n
        rw [List.foldl_cons, List.foldl_nil]
        have := (decDigitChar_props n h10).1
        omega
      · have hdiv : n / 10 < f := by
          have h1 : n / 10 < n := Nat.div_lt_self (by omega) (by omega)
          omega
        rw [natToDecAux, if_neg h10, natToDecAux_acc f _ _ hdiv]
        unfold digitsToNat
        rw [List.foldl_append]
        have hih := ih (n / 10) hdiv
        unfold digitsToNat at hih
        rw [hih, List.foldl_cons, List.foldl_nil]
        have := (decDigitChar_props (n % 10) (Nat.mod_lt n (by omega))).1
        omega
  exact main (n + 1) n (Nat.lt_succ_self n)

theorem natToDecCh_all_digits (n : Nat) :
    (natToDecCh n).all Char.isDigit = true := by
  have main : ∀ f n, n < f → (natToDecAux f n []).all Char.isDigit = true := by
    intro f
    induction f with
    | zero => intro n h; omega
    | succ f ih =>
      intro n h
      by_cases h10 : n < 10
      · rw [natToDecAux, if_pos h10]
        simp [(decDigitChar_props n h10).2.1]
      · have hdiv : n / 10 < f := by
          have h1 : n / 10 < n := Nat.div_lt_self (by omega) (by omega)
          omega
        rw [natToDecAux, if_neg h10, natToDecAux_acc f _ _ hdiv]
        rw [List.all_append, ih (n / 10) hdiv]
        simp [(decDigitChar_props (n % 10) (Nat.mod_lt n (by omega))).2.1]
  exact main (n + 1) n (Nat.lt_succ_self n)

theorem natToDecCh_ne_nil (n : Nat) : natToDecCh n ≠ [] := by
  unfold natToDecCh
  by_cases h10 : n < 10
  · rw [natToDecAux, if_pos h10]
    simp
  · have hdiv : n / 10 < n := Nat.div_lt_self (by omega) (by omega)
    rw [natToDecAux, if_neg h10, natToDecAux_acc n _ _ (by omega)]
    simp

/-! ## Trim and sublist facts (for Claim C1) -/

theorem all_of_sublist {p : Char → Bool} {s l : List Char}
    (hsub : s.Sublist l) (h : l.all p = true) : s.all p = true := by
  rw [List.all_eq_true] at h ⊢
  exact fun x hx => h x (hsub.subset hx)

theorem jsTrim_sublist (l : List Char) : (jsTrim l).Sublist l := by
  unfold jsTrim
  have h1 : (List.dropWhile isWsChar
      (List.dropWhile isWsChar l).reverse).Sublist (List.dropWhile isWsChar l).reverse :=
    List.dropWhile_sublist _
  have h2 := h1.reverse
  rw [List.reverse_reverse] at h2
  exact h2.trans (List.dropWhile_sublist _)

theorem tryPrWithWs_some_drop (l suffix : List Char) (h : tryPrWithWs l = some suffix) :
    ∃ k, suffix = l.drop k := by
  simp only [tryPrWithWs] at h
  split at h
  · rename_i n len hm
    exact ⟨(l.takeWhile isWsChar).length + len, (Option.some.inj h).symm⟩
  · exact absurd h (by simp)

theorem replaceFirstPrWs_sublist (l : List Char) : (replaceFirstPrWs l).Sublist l := by
  induction l with
  | nil => exact List.Sublist.refl []
  | cons c rest ih =>
    rw [replaceFirstPrWs]
    cases ht : tryPrWithWs (c :: rest) with
    | some suffix =>
      obtain ⟨k, rfl⟩ := tryPrWithWs_some_drop (c :: rest) suffix ht
      exact List.drop_sublist k (c :: rest)
    | none => exact ih.cons₂ c

theorem jsTrim_getLast_not_ws (l : List Char) (c : Char)
    (h : (jsTrim l).getLast? = some c) : isWsChar c = false := by
  unfold jsTrim at h
  rw [List.getLast?_reverse] at h
  have := List.head?_dropWhile_not isWsChar (List.dropWhile isWsChar l).reverse
  rw [h] at this
  exact this

theorem jsTrim_head_not_ws (l : List Char) (c : Char)
    (h : (jsTrim l).head? = some c) : isWsChar c = false := by
  unfold jsTrim at h
  rw [List.head?_reverse] at h
  obtain ⟨pre, hpre⟩ :=
    List.dropWhile_suffix (l := (List.dropWhile isWsChar l).reverse) isWsChar
  have hrev : (List.dropWhile isWsChar l).reverse.getLast? = some c := by
    rw [← hpre, List.getLast?_append, h]
    rfl
  rw [List.getLast?_reverse] at hrev
  have h2 := List.head?_dropWhile_not isWsChar l
  rw [hrev] at h2
  exact h2

theorem jsTrim_of_clean (l : List Char)
    (hh : ∀ c, l.head? = some c → isWsChar c = false)
    (hl : ∀ c, l.getLast? = some c → isWsChar c = false) :
    jsTrim l = l := by
  have h1 : List.dropWhile isWsChar l = l := by
    cases l with
    | nil => rfl
    | cons a t =>
      rw [List.dropWhile_cons, if_neg (by simp [hh a rfl])]
  unfold jsTrim
  rw [h1]
  have h2 : List.dropWhile isWsChar l.reverse = l.reverse := by
    cases hr : l.reverse with
    | nil => rfl
    | cons a t =>
      have ha : l.getLast? = some a := by
        rw [← List.head?_reverse, hr]
        rfl
      rw [List.dropWhile_cons, if_neg (by simp [hl a ha])]
  rw [h2, List.reverse_reverse]

theorem jsTrim_idem (l : List Char) : jsTrim (jsTrim l) = jsTrim l :=
  jsTrim_of_clean (jsTrim l) (jsTrim_head_not_ws l) (jsTrim_getLast_not_ws l)

/-! ## Shape of the PR-reference matcher (for Claim C1) -/

theorem drop_length_takeWhile (p : Char → Bool) (l : List Char) :
    l.drop (l.takeWhile p).length = l.dropWhile p := by
  induction l with
  | nil => rfl
  | cons a t ih =>
    by_cases hp : p a
    · rw [List.takeWhile_cons, if_pos hp, List.dropWhile_cons, if_pos hp]
      simpa using ih
    · rw [List.takeWhile_cons, if_neg hp, List.dropWhile_cons, if_neg hp]
      rfl

/-- `takeWhile isDigit` over an all-digit block followed by a non-digit
stops exactly at the block. -/
theorem takeWhile_digits_append (ds z : List Char) (hall : ds.all Char.isDigit = true)
    (hz : ∀ c, z.head? = some c → c.isDigit = false) :
    (ds ++ z).takeWhile Char.isDigit = ds := by
  induction ds with
  | nil =>
    cases z with
    | nil => rfl
    | cons c t =>
      rw [List.nil_append, List.takeWhile_cons, if_neg (by simp [hz c rfl])]
  | cons d ds' ih =>
    rw [List.all_cons] at hall
    rw [List.cons_append, List.takeWhile_cons,
      if_pos (Bool.and_eq_true_iff.mp hall).1,
      ih (Bool.and_eq_true_iff.mp hall).2]

theorem matchPrAt_some_shape (l : List Char) (n k : Nat) (h : matchPrAt l = some (n, k)) :
    ∃ ds rest, ds ≠ [] ∧ ds.all Char.isDigit = true ∧
      l = '(' :: '#' :: (ds ++ ')' :: rest) ∧
      n = digitsToNat ds ∧ k = ds.length + 3 := by
  unfold matchPrAt at h
  split at h
  · rename_i rest0
    simp only at h
    by_cases hds : rest0.takeWhile Char.isDigit = []
    · rw [if_pos hds] at h
      exact absurd h (by simp)
    · rw [if_neg hds] at h
      split at h
      · rename_i tail heq
        obtain ⟨hn, hk⟩ : n = digitsToNat (rest0.takeWhile Char.isDigit) ∧
            k = (rest0.takeWhile Char.isDigit).length + 3 := by
          have := Option.some.inj h
          exact ⟨(congrArg Prod.fst this).symm, (congrArg Prod.snd this).symm⟩
        rw [drop_length_takeWhile] at heq
        refine ⟨rest0.takeWhile Char.isDigit, tail, hds, ?_, ?_, hn, hk⟩
        · rw [List.all_eq_true]
          exact fun x hx => List.mem_takeWhile_imp hx
        · nth_rewrite 1 [← List.takeWhile_append_dropWhile Char.isDigit rest0]
          rw [heq]
      · exact absurd h (by simp)
  · exact absurd h (by simp)

theorem matchPrAt_cons_cons (rest0 : List Char) :
    matchPrAt ('(' :: '#' :: rest0) =
      (if rest0.takeWhile Char.isDigit = [] then none
       else
         match rest0.drop (rest0.takeWhile Char.isDigit).length with
         | ')' :: _ => some (digitsToNat (rest0.takeWhile Char.isDigit),
             (rest0.takeWhile Char.isDigit).length + 3)
         | _ => none) := rfl

theorem matchPrAt_of_shape (ds rest : List Char) (hne : ds ≠ [])
    (hall : ds.all Char.isDigit = true) :
    matchPrAt ('(' :: '#' :: (ds ++ ')' :: rest))
      = some (digitsToNat ds, ds.length + 3) := by
  rw [matchPrAt_cons_cons]
  rw [takeWhile_digits_append ds (')' :: rest) hall (fun c hc => by
    simp at hc
    simp [← hc])]
  rw [if_neg hne, List.drop_left]
  rfl

/-- A failing PR-reference match stays failing when the text continues with
a space: the core pattern holds no space, so no new match can straddle the
boundary. -/
theorem matchPrAt_append_sp (xs w : List Char) (h : matchPrAt xs = none) :
    matchPrAt (xs ++ ' ' :: w) = none := by
  cases hm : matchPrAt (xs ++ ' ' :: w) with
  | none => rfl
  | some r =>
    exfalso
    obtain ⟨n, k⟩ := r
    obtain ⟨ds, rest, hdsne, hdsall, heq, -, -⟩ := matchPrAt_some_shape _ n k hm
    cases xs with
    | nil => simp at heq
    | cons a as =>
      rw [List.cons_append] at heq
      injection heq with ha heq1
      subst ha
      cases as with
      | nil => simp at heq1
      | cons b bs =>
        rw [List.cons_append] at heq1
        injection heq1 with hb heq2
        subst hb
        have heq3 : bs ++ ' ' :: w = ds ++ ')' :: rest := heq2
        rcases Nat.lt_trichotomy bs.length ds.length with hlt | heqn | hgt
        · have hds : ds = bs ++ ' ' :: (w.take (ds.length - bs.length - 1)) := by
            have h1 : ds = (ds ++ ')' :: rest).take ds.length := (List.take_left ds _).symm
            rw [← heq3, List.take_append_eq_append_take,
              List.take_of_length_le (le_of_lt hlt),
              List.take_cons (by omega)] at h1
            exact h1
          have hsp : (' ' : Char) ∈ ds := by
            rw [hds]
            exact List.mem_append_right bs (List.mem_cons_self _ _)
          have := List.all_eq_true.mp hdsall ' ' hsp
          simp [Char.isDigit] at this
        · obtain ⟨-, habs⟩ := List.append_inj heq3 heqn
          simp at habs
        · have hbs : bs = ds ++ ')' :: (rest.take (bs.length - ds.length - 1)) := by
            have h1 : bs = (bs ++ ' ' :: w).take bs.length := (List.take_left bs _).symm
            rw [heq3, List.take_append_eq_append_take,
              List.take_of_length_le (le_of_lt hgt),
              List.take_cons (by omega)] at h1
            exact h1
          have hxs : matchPrAt ('(' :: '#' :: (ds ++ ')'
              :: (rest.take (bs.length - ds.length - 1))))
              = some (digitsToNat ds, ds.length + 3) :=
            matchPrAt_of_shape ds _ hdsne hdsall
          rw [← hbs] at hxs
          rw [hxs] at h
          exact absurd h (by simp)

/-! ## First-match and first-replace of PR references (for Claim C1) -/

theorem firstPr_cons (c : Char) (rest : List Char) :
    firstPr (c :: rest) =
      (match matchPrAt (c :: rest) with
       | some (n, _) => some n
       | none => firstPr rest) := rfl

theorem firstPr_eq_none_iff (l : List Char) :
    firstPr l = none ↔ ∀ i, matchPrAt (l.drop i) = none := by
  induction l with
  | nil =>
    constructor
    · intro _ i
      rw [List.drop_nil]
      rfl
    · intro _
      rfl
  | cons c rest ih =>
    rw [firstPr_cons]
    cases hm : matchPrAt (c :: rest) with
    | some r =>
      obtain ⟨n, k⟩ := r
      exact ⟨fun hemp => absurd hemp (by simp), fun hall => absurd (hall 0) (by simp [hm])⟩
    | none =>
      simp only
      constructor
      · intro hemp i
        cases i with
        | zero => exact hm
        | succ j => exact ih.mp hemp j
      · intro hall
        exact ih.mpr (fun j => hall (j + 1))

/-- A block free of PR references keeps `firstPr` looking past it (the
boundary space prevents straddling matches). -/
theorem firstPr_append_sp (desc z : List Char) (h : firstPr desc = none) :
    firstPr (desc ++ ' ' :: z) = firstPr (' ' :: z) := by
  induction desc with
  | nil => rfl
  | cons c cs ih =>
    have hm : matchPrAt (c :: cs) = none := by
      have := (firstPr_eq_none_iff (c :: cs)).mp h 0
      simpa using this
    have hrest : firstPr cs = none := by
      rw [firstPr_eq_none_iff]
      intro i
      exact (firstPr_eq_none_iff (c :: cs)).mp h (i + 1)
    rw [List.cons_append, firstPr_cons]
    have hm' := matchPrAt_append_sp (c :: cs) z hm
    rw [List.cons_append] at hm'
    rw [hm']
    exact ih hrest

theorem tryPrWithWs_eq_none (l : List Char)
    (h : matchPrAt (l.drop (l.takeWhile isWsChar).length) = none) :
    tryPrWithWs l = none := by
  simp only [tryPrWithWs]
  rw [h]

theorem replaceFirstPrWs_of_none (l : List Char)
    (h : ∀ i, matchPrAt (l.drop i) = none) : replaceFirstPrWs l = l := by
  induction l with
  | nil => rfl
  | cons c rest ih =>
    rw [replaceFirstPrWs, tryPrWithWs_eq_none (c :: rest) (h _)]
    rw [ih (fun i => h (i + 1))]

theorem decide_eq_false_of_not_isDigit (c x : Char) (h : c.isDigit = true)
    (hx : x.isDigit = false) : (decide (c = x)) = false := by
  by_cases hcx : c = x
  · rw [hcx] at h
    rw [h] at hx
    exact absurd hx (by simp)
  · simp [hcx]

theorem dotOk_of_isDigit (c : Char) (h : c.isDigit = true) : dotOk c = true := by
  rw [dotOk]
  rw [decide_eq_false_of_not_isDigit c '\n' h (by decide),
    decide_eq_false_of_not_isDigit c '\r' h (by decide),
    decide_eq_false_of_not_isDigit c '\u2028' h (by decide),
    decide_eq_false_of_not_isDigit c '\u2029' h (by decide)]
  rfl

theorem isWsChar_of_isDigit (c : Char) (h : c.isDigit = true) : isWsChar c = false := by
  rw [isWsChar]
  rw [decide_eq_false_of_not_isDigit c ' ' h (by decide),
    decide_eq_false_of_not_isDigit c '\t' h (by decide),
    decide_eq_false_of_not_isDigit c '\n' h (by decide),
    decide_eq_false_of_not_isDigit c '\r' h (by decide),
    decide_eq_false_of_not_isDigit c '\u000b' h (by decide),
    decide_eq_false_of_not_isDigit c '\u000c' h (by decide),
    decide_eq_false_of_not_isDigit c '\u00a0' h (by decide),
    decide_eq_false_of_not_isDigit c '\ufeff' h (by decide)]
  rfl

/-- Removing the first PR reference from `desc ++ " (#n)"`, when `desc`
holds none and does not end in whitespace, removes exactly the appended
reference. -/
theorem replaceFirstPrWs_append (desc : List Char) (ds : List Char)
    (hdsne : ds ≠ []) (hdsall : ds.all Char.isDigit = true)
    (hnone : ∀ i, matchPrAt (desc.drop i) = none)
    (hlast : desc = [] ∨ ∃ c, desc.getLast? = some c ∧ isWsChar c = false) :
    replaceFirstPrWs (desc ++ ' ' :: '(' :: '#' :: (ds ++ [')'])) = desc := by
  induction desc with
  | nil =>
    rw [List.nil_append, replaceFirstPrWs]
    have hm : matchPrAt (('(' :: '#' :: (ds ++ [')'])))
        = some (digitsToNat ds, ds.length + 3) := matchPrAt_of_shape ds [] hdsne hdsall
    have htry : tryPrWithWs (' ' :: '(' :: '#' :: (ds ++ [')']))
        = some ((' ' :: '(' :: '#' :: (ds ++ [')'])).drop (1 + (ds.length + 3))) := by
      simp only [tryPrWithWs]
      have htk : ((' ' :: '(' :: '#' :: (ds ++ [')'])).takeWhile isWsChar).length = 1 := by
        rw [List.takeWhile_cons, if_pos (by decide), List.takeWhile_cons,
          if_neg (by decide)]
        rfl
      rw [htk]
      rw [show (' ' :: '(' :: '#' :: (ds ++ [')'])).drop 1
        = '(' :: '#' :: (ds ++ [')']) from rfl]
      rw [hm]
    rw [htry]
    rw [List.drop_eq_nil_iff.mpr (by simp; omega)]
  | cons c cs ih =>
    obtain ⟨cl, hcl, hclw⟩ : ∃ cl, (c :: cs).getLast? = some cl ∧ isWsChar cl = false := by
      rcases hlast with habs | hok
      · exact absurd habs (by simp)
      · exact hok
    have hnotall : ¬((c :: cs).takeWhile isWsChar).length = (c :: cs).length := by
      intro heqlen
      have heq : (c :: cs).takeWhile isWsChar = c :: cs :=
        (List.takeWhile_prefix isWsChar).eq_of_length heqlen
      have hmem : cl ∈ (c :: cs) := by
        have hg := List.getLast?_eq_getLast (c :: cs) (by simp)
        rw [hcl] at hg
        have := List.getLast_mem (l := c :: cs) (by simp)
        rw [← Option.some.inj hg] at this
        exact this
      have hwt : isWsChar cl = true := by
        rw [← heq] at hmem
        exact List.mem_takeWhile_imp hmem
      rw [hclw] at hwt
      exact absurd hwt (by simp)
    have htkapp : ((c :: cs) ++ ' ' :: '(' :: '#' :: (ds ++ [')'])).takeWhile isWsChar
        = (c :: cs).takeWhile isWsChar := by
      rw [List.takeWhile_append, if_neg hnotall]
    have hmlt : ((c :: cs).takeWhile isWsChar).length < (c :: cs).length := by
      have := (List.takeWhile_prefix (l := c :: cs) isWsChar).length_le
      omega
    have hdropapp : ((c :: cs) ++ ' ' :: '(' :: '#' :: (ds ++ [')'])).drop
          ((c :: cs).takeWhile isWsChar).length
        = ((c :: cs).drop ((c :: cs).takeWhile isWsChar).length)
          ++ ' ' :: '(' :: '#' :: (ds ++ [')']) := by
      rw [List.drop_append_eq_append_drop]
      rw [show ((c :: cs).takeWhile isWsChar).length - (c :: cs).length = 0 by omega]
      rfl
    have htry : tryPrWithWs ((c :: cs) ++ ' ' :: '(' :: '#' :: (ds ++ [')'])) = none := by
      apply tryPrWithWs_eq_none
      rw [htkapp, hdropapp]
      exact matchPrAt_append_sp _ _ (hnone _)
    rw [List.cons_append, replaceFirstPrWs]
    rw [show (c :: cs) ++ ' ' :: '(' :: '#' :: (ds ++ [')'])
      = c :: (cs ++ ' ' :: '(' :: '#' :: (ds ++ [')'])) from rfl] at htry
    rw [htry]
    have hcs : replaceFirstPrWs (cs ++ ' ' :: '(' :: '#' :: (ds ++ [')'])) = cs := by
      apply ih
      · intro i
        exact hnone (i + 1)
      · cases hcs0 : cs with
        | nil => exact Or.inl rfl
        | cons d dt =>
          refine Or.inr ⟨cl, ?_, hclw⟩
          rw [hcs0] at hcl
          rw [List.getLast?_cons_cons] at hcl
          exact hcl
    rw [hcs]

/-! ## Decoding a rendered task line (for Claim C1) -/

theorem all_imp {p q : Char → Bool} (l : List Char) (h : l.all p = true)
    (himp : ∀ c, p c = true → q c = true) : l.all q = true := by
  rw [List.all_eq_true] at h ⊢
  exact fun x hx => himp x (h x hx)

/-- The rendered PR suffix contains only dot-matchable characters. -/
theorem prSuffix_all_dotOk (n : Nat) :
    (' ' :: '(' :: '#' :: (natToDecCh n ++ [')'])).all dotOk = true := by
  rw [List.all_cons, List.all_cons, List.all_cons, List.all_append, List.all_cons,
    List.all_nil]
  rw [all_imp (natToDecCh n) (natToDecCh_all_digits n) dotOk_of_isDigit]
  decide

/-- Parsing a rendered line: the regex walks the dash, the checkbox and the
separating space. -/
theorem parseTaskLine_dash (cb : Char) (body : List Char) (hcb : isBoxChar cb = true) :
    parseTaskLine ('-' :: ' ' :: '[' :: cb :: ']' :: ' ' :: body) =
      (match tailAfterWs (' ' :: body) with
       | some g => some (cb, g)
       | none => none) := by
  show (if isBoxChar cb then
      match tailAfterWs (' ' :: body) with
      | some g => some (cb, g)
      | none => none
    else none) = _
  rw [hcb]
  rfl

/-- The captured group after the checkbox, when the body is non-empty and
starts with a non-whitespace character, is the body itself. -/
theorem tailAfterWs_sp (body : List Char) (hne : body ≠ [])
    (hh : ∀ c, body.head? = some c → isWsChar c = false)
    (hdot : body.all dotOk = true) :
    tailAfterWs (' ' :: body) = some body := by
  obtain ⟨b0, brest, rfl⟩ : ∃ b0 brest, body = b0 :: brest := by
    cases body with
    | nil => exact absurd rfl hne
    | cons b0 brest => exact ⟨b0, brest, rfl⟩
  unfold tailAfterWs
  rw [if_neg (by simp)]
  have htk : ((' ' :: b0 :: brest).takeWhile isWsChar).length = 1 := by
    rw [List.takeWhile_cons, if_pos (by decide), List.takeWhile_cons,
      if_neg (by simp [hh b0 rfl])]
    rfl
  have hk : min ((' ' :: b0 :: brest).takeWhile isWsChar).length
      ((' ' :: b0 :: brest).length - 1) = 1 := by
    rw [htk]
    simp
  rw [hk]
  show (if (b0 :: brest).all dotOk = true then some (b0 :: brest) else none)
    = some (b0 :: brest)
  rw [if_pos hdot]

/-- The captured group when the description is empty and a PR suffix
follows: both spaces are eaten. -/
theorem tailAfterWs_sp_sp (z : List Char) (hne : z ≠ [])
    (hh : ∀ c, z.head? = some c → isWsChar c = false)
    (hdot : z.all dotOk = true) :
    tailAfterWs (' ' :: ' ' :: z) = some z := by
  obtain ⟨b0, brest, rfl⟩ : ∃ b0 brest, z = b0 :: brest := by
    cases z with
    | nil => exact absurd rfl hne
    | cons b0 brest => exact ⟨b0, brest, rfl⟩
  unfold tailAfterWs
  rw [if_neg (by simp)]
  have htk : ((' ' :: ' ' :: b0 :: brest).takeWhile isWsChar).length = 2 := by
    rw [List.takeWhile_cons, if_pos (by decide), List.takeWhile_cons, if_pos (by decide),
      List.takeWhile_cons, if_neg (by simp [hh b0 rfl])]
    rfl
  have hk : min ((' ' :: ' ' :: b0 :: brest).takeWhile isWsChar).length
      ((' ' :: ' ' :: b0 :: brest).length - 1) = 2 := by
    rw [htk]
    simp
  rw [hk]
  show (if (b0 :: brest).all dotOk = true then some (b0 :: brest) else none)
    = some (b0 :: brest)
  rw [if_pos hdot]

theorem decodeTaskLine_eq (l : List Char) :
    decodeTaskLine l =
      (match parseTaskLine l with
       | some (c, g) => some (c = 'x' || c = 'X', jsTrim (replaceFirstPrWs g), firstPr g)
       | none => none) := rfl

theorem head?_append_of_ne_nil (l l' : List Char) (h : l ≠ []) :
    (l ++ l').head? = l.head? := by
  cases l with
  | nil => exact absurd rfl h
  | cons a t => rfl

theorem firstPr_sp_core (ds : List Char) (hne : ds ≠ [])
    (hall : ds.all Char.isDigit = true) :
    firstPr (' ' :: '(' :: '#' :: (ds ++ [')'])) = some (digitsToNat ds) := by
  rw [firstPr_cons]
  rw [show matchPrAt (' ' :: '(' :: '#' :: (ds ++ [')'])) = none from rfl]
  rw [firstPr_cons, matchPrAt_of_shape ds [] hne hall]

theorem replaceFirstPrWs_core (ds : List Char) (hne : ds ≠ [])
    (hall : ds.all Char.isDigit = true) :
    replaceFirstPrWs ('(' :: '#' :: (ds ++ [')'])) = [] := by
  rw [replaceFirstPrWs]
  have htry : tryPrWithWs ('(' :: '#' :: (ds ++ [')']))
      = some (('(' :: '#' :: (ds ++ [')'])).drop (0 + (ds.length + 3))) := by
    simp only [tryPrWithWs]
    have htk : (('(' :: '#' :: (ds ++ [')'])).takeWhile isWsChar).length = 0 := by
      rw [List.takeWhile_cons, if_neg (by decide)]
      rfl
    rw [htk]
    rw [show ('(' :: '#' :: (ds ++ [')'])).drop 0 = '(' :: '#' :: (ds ++ [')']) from rfl]
    rw [matchPrAt_of_shape ds [] hne hall]
  rw [htry]
  rw [List.drop_eq_nil_iff.mpr (by simp)]

/-- Decoding the rendered line of a task gives the task's fields back,
provided the description is trimmed, free of line terminators and of PR
references, and the PR number is not the (unrendered) `0`. -/
theorem decodeTaskLine_renderTask (t : Task)
    (htrim : jsTrim t.description.data = t.description.data)
    (hdot : t.description.data.all dotOk = true)
    (hpr : firstPr t.description.data = none)
    (hpr0 : t.prNumber ≠ some 0) :
    decodeTaskLine (renderTask t) = some (t.completed, t.description.data, t.prNumber) := by
  obtain ⟨tid, descS, compl, pr⟩ := t
  simp only at htrim hdot hpr hpr0 ⊢
  have hhd : ∀ c, descS.data.head? = some c → isWsChar c = false :=
    fun c hc => jsTrim_head_not_ws descS.data c (by rw [htrim]; exact hc)
  have hlastw : ∀ c, descS.data.getLast? = some c → isWsChar c = false :=
    fun c hc => jsTrim_getLast_not_ws descS.data c (by rw [htrim]; exact hc)
  have hbox : ∀ b : Bool, isBoxChar (if b then 'x' else ' ') = true := by
    intro b
    cases b <;> decide
  have hcompl : ∀ b : Bool, (((if b then 'x' else ' ') = 'x')
      || ((if b then 'x' else ' ') = 'X')) = b := by
    intro b
    cases b <;> decide
  cases pr with
  | none =>
    by_cases hdnil : descS.data = []
    · have hdS : descS = "" := by
        cases descS
        simp at hdnil
        rw [hdnil]
      subst hdS
      cases compl <;> rfl
    · have hrender : renderTask ⟨tid, descS, compl, none⟩
          = '-' :: ' ' :: '[' :: (if compl then 'x' else ' ') :: ']' :: ' '
            :: (descS.data ++ []) := rfl
      rw [hrender, List.append_nil, decodeTaskLine_eq,
        parseTaskLine_dash _ _ (hbox compl),
        tailAfterWs_sp descS.data hdnil hhd hdot]
      show some _ = _
      rw [replaceFirstPrWs_of_none descS.data ((firstPr_eq_none_iff _).mp hpr),
        htrim, hpr, hcompl compl]
  | some n =>
    have hn0 : n ≠ 0 := fun h0 => hpr0 (by rw [h0])
    have hdsne := natToDecCh_ne_nil n
    have hdsall := natToDecCh_all_digits n
    by_cases hdnil : descS.data = []
    · have hrender0 : renderTask ⟨tid, descS, compl, some n⟩
          = '-' :: ' ' :: '[' :: (if compl then 'x' else ' ') :: ']' :: ' '
            :: (descS.data ++ (if n = 0 then []
              else ' ' :: '(' :: '#' :: (natToDecCh n ++ [')']))) := rfl
      have hrender : renderTask ⟨tid, descS, compl, some n⟩
          = '-' :: ' ' :: '[' :: (if compl then 'x' else ' ') :: ']' :: ' '
            :: (descS.data ++ (' ' :: '(' :: '#' :: (natToDecCh n ++ [')']))) := by
        rw [hrender0, if_neg hn0]
      rw [hrender, hdnil, List.nil_append, decodeTaskLine_eq,
        parseTaskLine_dash _ _ (hbox compl)]
      have hz : ∀ c, ('(' :: '#' :: (natToDecCh n ++ [')'])).head? = some c →
          isWsChar c = false := by
        intro c hc
        rw [show ('(' :: '#' :: (natToDecCh n ++ [')'])).head? = some '(' from rfl] at hc
        rw [← Option.some.inj hc]
        decide
      have hzdot : ('(' :: '#' :: (natToDecCh n ++ [')'])).all dotOk = true := by
        have := prSuffix_all_dotOk n
        rw [List.all_cons] at this
        exact (Bool.and_eq_true_iff.mp this).2
      rw [tailAfterWs_sp_sp _ (by simp) hz hzdot]
      show some _ = _
      rw [replaceFirstPrWs_core (natToDecCh n) hdsne hdsall]
      rw [firstPr_cons, matchPrAt_of_shape (natToDecCh n) [] hdsne hdsall]
      rw [hcompl compl]
      show some (compl, jsTrim [], some (digitsToNat (natToDecCh n))) = _
      rw [digitsToNat_natToDecCh n]
      rfl
    · have hrender0 : renderTask ⟨tid, descS, compl, some n⟩
          = '-' :: ' ' :: '[' :: (if compl then 'x' else ' ') :: ']' :: ' '
            :: (descS.data ++ (if n = 0 then []
              else ' ' :: '(' :: '#' :: (natToDecCh n ++ [')']))) := rfl
      have hrender : renderTask ⟨tid, descS, compl, some n⟩
          = '-' :: ' ' :: '[' :: (if compl then 'x' else ' ') :: ']' :: ' '
            :: (descS.data ++ (' ' :: '(' :: '#' :: (natToDecCh n ++ [')']))) := by
        rw [hrender0, if_neg hn0]
      have hbodyne : descS.data ++ (' ' :: '(' :: '#' :: (natToDecCh n ++ [')'])) ≠ [] := by
        simp
      have hbodyhd : ∀ c, (descS.data ++ (' ' :: '(' :: '#'
          :: (natToDecCh n ++ [')']))).head? = some c → isWsChar c = false := by
        intro c hc
        rw [head?_append_of_ne_nil descS.data _ hdnil] at hc
        exact hhd c hc
      have hbodydot : (descS.data ++ (' ' :: '(' :: '#'
          :: (natToDecCh n ++ [')']))).all dotOk = true := by
        rw [List.all_append, hdot, prSuffix_all_dotOk n]
        rfl
      rw [hrender, decodeTaskLine_eq, parseTaskLine_dash _ _ (hbox compl),
        tailAfterWs_sp _ hbodyne hbodyhd hbodydot]
      show some _ = _
      have hrepl : replaceFirstPrWs (descS.data ++ (' ' :: '(' :: '#'
          :: (natToDecCh n ++ [')']))) = descS.data := by
        apply replaceFirstPrWs_append descS.data (natToDecCh n) hdsne hdsall
          ((firstPr_eq_none_iff _).mp hpr)
        refine Or.inr ?_
        obtain ⟨cl, hcl⟩ : ∃ cl, descS.data.getLast? = some cl := by
          cases hq : descS.data.getLast? with
          | none => exact absurd (List.getLast?_eq_none_iff.mp hq) hdnil
          | some x => exact ⟨x, rfl⟩
        exact ⟨cl, hcl, hlastw cl hcl⟩
      rw [hrepl, htrim]
      have hfp : firstPr (descS.data ++ (' ' :: '(' :: '#'
          :: (natToDecCh n ++ [')']))) = some n := by
        rw [firstPr_append_sp descS.data _ hpr,
          firstPr_sp_core (natToDecCh n) hdsne hdsall, digitsToNat_natToDecCh n]
      rw [hfp, hcompl compl]

/-! ## Properties of the extracted task list (for Claim C1) -/

theorem tailAfterWs_some_dotOk (rest g : List Char) (h : tailAfterWs rest = some g) :
    g.all dotOk = true := by
  unfold tailAfterWs at h
  split at h
  · exact absurd h (by simp)
  · simp only at h
    split at h
    · rename_i hall
      rw [← Option.some.inj h]
      exact hall
    · exact absurd h (by simp)

theorem parseTaskLine_some_dotOk (l : List Char) (c : Char) (g : List Char)
    (h : parseTaskLine l = some (c, g)) : g.all dotOk = true := by
  unfold parseTaskLine at h
  simp only at h
  split at h
  · split at h
    · split at h
      · rename_i g' hg
        have hgg : g' = g := congrArg Prod.snd (Option.some.inj h)
        rw [← hgg]
        exact tailAfterWs_some_dotOk _ g' hg
      · exact absurd h (by simp)
    · exact absurd h (by simp)
  · exact absurd h (by simp)

/-- Every task produced by the scanner has a trimmed, line-terminator-free
description. -/
theorem extractGo_desc_props (L : List (List Char)) :
    ∀ n t, t ∈ extractGo n L →
      jsTrim t.description.data = t.description.data ∧
      t.description.data.all dotOk = true := by
  induction L with
  | nil => intro n t ht; simp [extractGo] at ht
  | cons l ls ih =>
    intro n t ht
    cases hd : decodeTaskLine l with
    | some r =>
      obtain ⟨comp, desc, prn⟩ := r
      rw [extractGo, hd] at ht
      rcases List.mem_cons.mp ht with rfl | ht'
      · obtain ⟨c, g, hparse, hdesc⟩ : ∃ c g, parseTaskLine l = some (c, g) ∧
            desc = jsTrim (replaceFirstPrWs g) := by
          rw [decodeTaskLine_eq] at hd
          cases hp : parseTaskLine l with
          | none => rw [hp] at hd; exact absurd hd (by simp)
          | some cg =>
            obtain ⟨c, g⟩ := cg
            rw [hp] at hd
            refine ⟨c, g, rfl, ?_⟩
            have := Option.some.inj hd
            exact (congrArg (fun x => x.2.1) this).symm
        constructor
        · show jsTrim desc = desc
          rw [hdesc, jsTrim_idem]
        · show desc.all dotOk = true
          rw [hdesc]
          exact all_of_sublist
            ((jsTrim_sublist _).trans (replaceFirstPrWs_sublist g))
            (parseTaskLine_some_dotOk l c g hparse)
      · exact ih (n + 1) t ht'
    | none =>
      rw [extractGo, hd] at ht
      exact ih n t ht

/-- Ids are assigned positionally: the task at index `i` of the scan started
at counter `n` has id `toString (n + i)`. -/
theorem extractGo_id (L : List (List Char)) :
    ∀ n i t, (extractGo n L).get? i = some t → t.id = toString (n + i) := by
  induction L with
  | nil => intro n i t h; simp [extractGo] at h
  | cons l ls ih =>
    intro n i t h
    cases hd : decodeTaskLine l with
    | some r =>
      obtain ⟨comp, desc, prn⟩ := r
      simp only [extractGo, hd] at h
      cases i with
      | zero =>
        rw [List.get?_cons_zero] at h
        rw [← Option.some.inj h]
        rfl
      | succ j =>
        rw [List.get?_cons_succ] at h
        rw [ih (n + 1) j t h]
        congr 1
        omega
    | none =>
      simp only [extractGo, hd] at h
      exact ih n i t h

/-- Scanning the rendered lines of a task list whose tasks decode back to
their own fields and whose ids are positional reproduces the list. -/
theorem extractGo_renderTasks (T : List Task) :
    ∀ n,
      (∀ t ∈ T, decodeTaskLine (renderTask t)
        = some (t.completed, t.description.data, t.prNumber)) →
      (∀ i t, T.get? i = some t → t.id = toString (n + i)) →
      extractGo n (renderTasks T) = T := by
  induction T with
  | nil => intro n _ _; rfl
  | cons t ts ih =>
    intro n hdec hid
    show extractGo n (renderTask t :: renderTasks ts) = t :: ts
    simp only [extractGo, hdec t (List.mem_cons_self t ts)]
    have hid0 : t.id = toString n := by
      have := hid 0 t (by rw [List.get?_cons_zero])
      simpa using this
    have hhead : Task.mk (toString n) (String.mk t.description.data)
        t.completed t.prNumber = t := by
      obtain ⟨tid, tdesc, tcomp, tpr⟩ := t
      simp only at hid0 ⊢
      rw [← hid0]
    rw [hhead]
    rw [ih (n + 1) (fun x hx => hdec x (List.mem_cons_of_mem t hx))
      (fun i x hx => by
        have := hid (i + 1) x (by rw [List.get?_cons_succ]; exact hx)
        rw [this]
        congr 1
        omega)]

theorem decodeTaskLine_nil : decodeTaskLine ([] : List Char) = none := rfl

theorem decodeTaskLine_heading (l : List Char) (h : isTasksHeading l = true) :
    decodeTaskLine l = none := by
  obtain ⟨rest, rfl⟩ := isNextHeading_shape l (isTasksHeading_isNextHeading l h)
  rfl

theorem extractGo_all_none (S : List (List Char))
    (hS : ∀ l ∈ S, decodeTaskLine l = none) : ∀ n, extractGo n S = [] := by
  induction S with
  | nil => intro n; rfl
  | cons l ls ih =>
    intro n
    rw [extractGo, hS l (List.mem_cons_self l ls)]
    exact ih (fun x hx => hS x (List.mem_cons_of_mem l hx)) n

theorem extractGo_append_none_left (P L : List (List Char))
    (hP : ∀ l ∈ P, decodeTaskLine l = none) :
    ∀ n, extractGo n (P ++ L) = extractGo n L := by
  induction P with
  | nil => intro n; rfl
  | cons l P' ih =>
    intro n
    rw [List.cons_append, extractGo, hP l (List.mem_cons_self l P')]
    exact ih (fun x hx => hP x (List.mem_cons_of_mem l hx)) n

theorem extractGo_append_none_right (L S : List (List Char))
    (hS : ∀ l ∈ S, decodeTaskLine l = none) :
    ∀ n, extractGo n (L ++ S) = extractGo n L := by
  induction L with
  | nil =>
    intro n
    rw [List.nil_append, extractGo_all_none S hS n]
    rfl
  | cons l ls ih =>
    intro n
    cases hd : decodeTaskLine l with
    | some r =>
      obtain ⟨comp, desc, prn⟩ := r
      simp [extractGo, hd, ih (n + 1)]
    | none =>
      simp [extractGo, hd, ih n]

theorem renderTask_no_newline (t : Task)
    (hdot : t.description.data.all dotOk = true) : '\n' ∉ renderTask t := by
  obtain ⟨tid, descS, compl, pr⟩ := t
  simp only at hdot
  intro hmem
  have hdesc : '\n' ∉ descS.data := by
    intro hin
    have := List.all_eq_true.mp hdot '\n' hin
    simp [dotOk] at this
  have hds : ∀ n : Nat, '\n' ∉ natToDecCh n := by
    intro n hin
    have := List.all_eq_true.mp (natToDecCh_all_digits n) '\n' hin
    simp [Char.isDigit] at this
  cases pr with
  | none =>
    cases compl <;> (simp [renderTask] at hmem; exact hdesc hmem)
  | some n =>
    by_cases hn : n = 0
    · cases compl <;> (simp [renderTask, hn] at hmem; exact hdesc hmem)
    · cases compl <;>
        (simp [renderTask, hn] at hmem
         rcases hmem with hm | hm
         · exact hdesc hm
         · exact hds n hm)

/-! ## Claim C1 -/

/-- C1 (counterexample): the round trip fails when a checkbox line sits
outside the Tasks region: decoding `"- [ ] A\n## Tasks\n- [ ] B"` gives two
tasks, but the merge splices both under the heading while preserving the
pre-heading checkbox line verbatim, so decoding the merged document yields
three tasks. -/
theorem c1_roundtrip_fails_outside_tasks_region :
    extractTasksFromContent (updateStoryContent "- [ ] A\n## Tasks\n- [ ] B"
        (extractTasksFromContent "- [ ] A\n## Tasks\n- [ ] B"))
      ≠ extractTasksFromContent "- [ ] A\n## Tasks\n- [ ] B" := by
  rw [updateStoryContent, updateGo_eq_fuel]
  decide

/-- C1 (amended): the round trip `decode (merge d (decode d)) = decode d`
holds for documents of the shape prefix / `## Tasks` heading / checklist
block / optional `##`-headed suffix, where no line outside the checklist
block matches the checkbox grammar, the block consists of column-zero
checklist or blank lines not containing the developer-note phrase, the
suffix holds no further Tasks heading, and every decoded task has a
description free of `(#<digits>)` references and a PR number other than 0. -/
theorem c1_roundtrip (d : String) (P B S : List (List Char)) (h : List Char)
    (hsplit : splitLinesCh d.data = P ++ h :: (B ++ S))
    (hP : ∀ l ∈ P, isTasksHeading l = false)
    (hPd : ∀ l ∈ P, decodeTaskLine l = none)
    (hh : isTasksHeading h = true)
    (hB : ∀ l ∈ B, skipLine l = true)
    (hnote : ∀ l, (B ++ S).head? = some l → containsNote l = false)
    (hS : ∀ l ∈ S, isTasksHeading l = false)
    (hSd : ∀ l ∈ S, decodeTaskLine l = none)
    (hS2 : S = [] ∨ ∃ s r, S = s :: r ∧ isNextHeading s = true)
    (hpr : ∀ t ∈ extractTasksFromContent d, firstPr t.description.data = none)
    (hpr0 : ∀ t ∈ extractTasksFromContent d, t.prNumber ≠ some 0) :
    extractTasksFromContent (updateStoryContent d (extractTasksFromContent d))
      = extractTasksFromContent d := by
  have hmerge : updateGo (extractTasksFromContent d) false (splitLinesCh d.data)
      = P ++ h :: [] :: (renderTasks (extractTasksFromContent d) ++ S) := by
    rw [hsplit]
    exact updateGo_shape _ P B S h hP hh hB hnote hS hS2
  have hprops : ∀ t ∈ extractTasksFromContent d,
      jsTrim t.description.data = t.description.data ∧
      t.description.data.all dotOk = true := by
    intro t ht
    exact extractGo_desc_props (splitLinesCh d.data) 1 t ht
  have hdec : ∀ t ∈ extractTasksFromContent d, decodeTaskLine (renderTask t)
      = some (t.completed, t.description.data, t.prNumber) := by
    intro t ht
    exact decodeTaskLine_renderTask t (hprops t ht).1 (hprops t ht).2
      (hpr t ht) (hpr0 t ht)
  have hnl : ∀ x ∈ P ++ h :: [] ::
      (renderTasks (extractTasksFromContent d) ++ S), '\n' ∉ x := by
    intro x hx
    rcases List.mem_append.mp hx with hxP | hxR
    · exact splitLinesCh_no_newline d.data x
        (by rw [hsplit]; exact List.mem_append_left _ hxP)
    · rcases List.mem_cons.mp hxR with rfl | hxR1
      · exact splitLinesCh_no_newline d.data x
          (by rw [hsplit]; exact List.mem_append_right _ (List.mem_cons_self _ _))
      · rcases List.mem_cons.mp hxR1 with rfl | hxR2
        · simp
        · rcases List.mem_append.mp hxR2 with hxRT | hxS
          · obtain ⟨t, ht, rfl⟩ := List.mem_map.mp hxRT
            exact renderTask_no_newline t (hprops t ht).2
          · exact splitLinesCh_no_newline d.data x (by
              rw [hsplit]
              exact List.mem_append_right _
                (List.mem_cons_of_mem _ (List.mem_append_right _ hxS)))
  show extractGo 1 (splitLinesCh (joinLinesCh (updateGo (extractTasksFromContent d)
      false (splitLinesCh d.data)))) = extractTasksFromContent d
  rw [hmerge]
  rw [splitLinesCh_joinLinesCh _ hnl (by simp)]
  rw [extractGo_append_none_left P _ hPd 1]
  have hhd : decodeTaskLine h = none := decodeTaskLine_heading h hh
  simp only [extractGo, hhd, decodeTaskLine_nil]
  rw [extractGo_append_none_right _ S hSd 1]
  exact extractGo_renderTasks (extractTasksFromContent d) 1 hdec
    (fun i t ht => extractGo_id (splitLinesCh d.data) 1 i t ht)

theorem c1_roundtrip_witness :
    extractTasksFromContent (updateStoryContent
        "# Title\n\nDesc\n\n## Tasks\n\n- [ ] A\n- [x] B (#7)\n"
        (extractTasksFromContent
          "# Title\n\nDesc\n\n## Tasks\n\n- [ ] A\n- [x] B (#7)\n"))
      = extractTasksFromContent
          "# Title\n\nDesc\n\n## Tasks\n\n- [ ] A\n- [x] B (#7)\n" :=
  c1_roundtrip "# Title\n\nDesc\n\n## Tasks\n\n- [ ] A\n- [x] B (#7)\n"
    ["# Title".data, [], "Desc".data, []]
    [[], "- [ ] A".data, "- [x] B (#7)".data, []] []
    "## Tasks".data
    (by decide) (by decide) (by decide) (by decide) (by decide)
    (by
      intro l hl
      have h0 : l = [] := by
        have := Option.some.inj hl.symm
        simpa using this.symm
      rw [h0]
      decide)
    (by decide) (by decide) (Or.inl rfl) (by decide) (by decide)

end LocalStore
